import Mathlib

/-!
# PuzzleSnap recognition pipeline: verification of the specification claims

This file gives a shallow embedding in Lean 4 of the parts of the
PuzzleSnap Sudoku-recognition code that the specification claims talk
about, and proves or refutes each claim:

* the conflict pruner `pruneConflictingDetections`,
* the direct-linear-transform homography solver (`solveLinearSystem8`,
  `homographyFrom4Points`) and the per-pixel warp of `warpCanvasToSquare`,
* the Otsu global threshold `otsuThreshold`,
* the per-cell confidence fusion of `recognizeSudokuFromImageFile`,
* the fixture utilities `parseExpectedGrid`, `scoreRecognition`,
  `transformGrid`, `bestAlignment`.

Machine numbers of the JavaScript source (IEEE doubles) are modelled by
exact rationals, and JavaScript `number[]`/nullable cells by `Fin 81 →`
functions, lists and `Option`.
-/

namespace PuzzleSnap

/-! ## Board model

`BoardValues` in the source is an array of 81 cells, each a digit or
`null`; index `i` has row `i / 9` and column `i % 9`. -/

/-- 81-cell board: each cell a digit (`some d`) or unknown (`none`). -/
abbrev Board : Type := Fin 81 → Option ℕ

/-- 81 confidence scores, one per cell. -/
abbrev Conf : Type := Fin 81 → ℚ

/-- The peer test computed inline by `peerIndexes` in
`pruneConflictingDetections`: same row, same column, or same 3×3 box
(`Math.floor(r / 3)` twice). -/
def sameUnit (i j : Fin 81) : Prop :=
  i.val / 9 = j.val / 9 ∨ i.val % 9 = j.val % 9 ∨
    (i.val / 9 / 3 = j.val / 9 / 3 ∧ i.val % 9 / 3 = j.val % 9 / 3)

instance (i j : Fin 81) : Decidable (sameUnit i j) := by
  unfold sameUnit; infer_instance

/-- Membership test of the list built by `peerIndexes(index)` in the
source: a cell `i` distinct from `index`, not null, in the same unit,
holding the identical value. -/
def isConflictPeer (v : Board) (idx i : Fin 81) : Prop :=
  i ≠ idx ∧ (v i).isSome ∧ sameUnit i idx ∧ v i = v idx

instance (v : Board) (idx i : Fin 81) : Decidable (isConflictPeer v idx i) := by
  unfold isConflictPeer; infer_instance

/-- `peerIndexes` from `pruneConflictingDetections`: all indices holding
the same digit as `idx` in the same row/column/box. -/
def peerIndexes (v : Board) (idx : Fin 81) : List (Fin 81) :=
  (List.finRange 81).filter (fun i => decide (isConflictPeer v idx i))

/-- `peers.reduce((acc, peer) => Math.max(acc, nextConf[peer] ?? 0), 0)`. -/
def peerMaxConf (c : Conf) (l : List (Fin 81)) : ℚ :=
  l.foldl (fun acc p => max acc (c p)) 0

/-- The candidate score of the pruner: confidence plus a protection
bonus of 1000 for very high confidence (≥ 86) not beaten by any
conflicting peer. -/
def cellScore (v : Board) (c : Conf) (i : Fin 81) : ℚ :=
  c i + (if 86 ≤ c i ∧ peerMaxConf c (peerIndexes v i) ≤ c i then 1000 else 0)

/-- A cell the pruner considers dropping: filled, with at least one
conflicting peer. -/
def isCand (v : Board) (i : Fin 81) : Prop :=
  (v i).isSome ∧ peerIndexes v i ≠ []

instance (v : Board) (i : Fin 81) : Decidable (isCand v i) := by
  unfold isCand; infer_instance

/-- One step of the inner `for (i = 0; i < 81; ...)` scan searching the
lowest-scoring candidate (`score < dropScore`, so the first minimum
wins; the initial `dropScore` of `+∞` is modelled by the `none` state). -/
def findDropStep (v : Board) (c : Conf) (st : Option (Fin 81 × ℚ)) (i : Fin 81) :
    Option (Fin 81 × ℚ) :=
  if isCand v i then
    match st with
    | none => some (i, cellScore v c i)
    | some js => if cellScore v c i < js.2 then some (i, cellScore v c i) else some js
  else st

/-- The whole inner scan: index of the candidate to drop, if any. -/
def findDrop (v : Board) (c : Conf) : Option (Fin 81) :=
  ((List.finRange 81).foldl (findDropStep v c) none).map Prod.fst

/-- Result of the pruning loop; `completed = true` means the loop ended
by `break` (no conflicted candidate found), not by the guard cap. -/
structure PruneResult where
  values : Board
  conf : Conf
  dropped : ℕ
  completed : Bool

/-- The `for (guard = 0; guard < 200; ...)` loop: find the lowest-scoring
conflicted candidate, set it to null with confidence 0, repeat. -/
def pruneLoop : ℕ → Board → Conf → ℕ → PruneResult
  | 0, v, c, d => ⟨v, c, d, false⟩
  | fuel + 1, v, c, d =>
    match findDrop v c with
    | none => ⟨v, c, d, true⟩
    | some i => pruneLoop fuel (Function.update v i none) (Function.update c i 0) (d + 1)

/-- `pruneConflictingDetections` (with the default `highConfidence = 86`):
returns the pruned values and the number of dropped cells. -/
def pruneConflictingDetections (v : Board) (c : Conf) : Board × ℕ :=
  let r := pruneLoop 200 v c 0
  (r.values, r.dropped)

/-! ## Fixture utilities (`src/lib/sudoku-fixtures.ts`)

Grids are the `BoardValues` arrays of the fixtures module, modelled as
lists of 81 optional digits; out-of-range reads (never exercised by the
code) default to `none`. -/

/-- `BoardValues` as handled by the fixtures module. -/
abbrev FixtureGrid : Type := List (Option ℕ)

/-- The eight square symmetries of `GridTransform`. -/
inductive GridTransform
  | identity
  | rotate90
  | rotate180
  | rotate270
  | flipH
  | flipV
  | transpose
  | antiTranspose
deriving DecidableEq

/-- `sourceForTransform(row, col, transform)`: the source cell feeding
destination cell `(row, col)`. -/
def sourceForTransform (row col : ℕ) : GridTransform → ℕ × ℕ
  | .identity => (row, col)
  | .rotate90 => (8 - col, row)
  | .rotate180 => (8 - row, 8 - col)
  | .rotate270 => (col, 8 - row)
  | .flipH => (row, 8 - col)
  | .flipV => (8 - row, col)
  | .transpose => (col, row)
  | .antiTranspose => (8 - col, 8 - row)

/-- `transformGrid`: builds the 81-cell array
`next[row*9+col] = values[sourceRow*9+sourceCol]`. -/
def transformGrid (values : FixtureGrid) (t : GridTransform) : FixtureGrid :=
  (List.range 81).map (fun idx =>
    let rc := sourceForTransform (idx / 9) (idx % 9) t
    values.getD (rc.1 * 9 + rc.2) none)

/-- Result record of `scoreRecognition`. -/
structure Score where
  totalExpected : ℕ
  matchedExpected : ℕ
  falsePositives : ℕ
  accuracy : ℚ
deriving DecidableEq

/-- `scoreRecognition(expected, actual)`: counts over the 81 cells;
`accuracy = 0` when there are no expected givens. -/
def scoreRecognition (expected actual : FixtureGrid) : Score :=
  let te := (List.range 81).countP
    (fun i => decide ((expected.getD i none).isSome = true))
  let me := (List.range 81).countP
    (fun i => decide ((expected.getD i none).isSome = true ∧
      actual.getD i none = expected.getD i none))
  let fp := (List.range 81).countP
    (fun i => decide ((actual.getD i none).isSome = true ∧
      actual.getD i none ≠ expected.getD i none))
  ⟨te, me, fp, if te = 0 then 0 else (me : ℚ) / te⟩

/-- Result record of `bestAlignment`. -/
structure Alignment where
  transform : GridTransform
  accuracy : ℚ
  falsePositives : ℕ
  matchedExpected : ℕ
  totalExpected : ℕ
deriving DecidableEq

/-- The record `{ transform, ...score }` assembled by `bestAlignment`. -/
def alignOf (t : GridTransform) (s : Score) : Alignment :=
  ⟨t, s.accuracy, s.falsePositives, s.matchedExpected, s.totalExpected⟩

/-- One step of the `for (const transform of transforms)` loop:
replace the best when strictly more accurate, or equally accurate with
strictly fewer false positives. -/
def alignStep (expected actual : FixtureGrid) (best : Alignment) (t : GridTransform) :
    Alignment :=
  let s := scoreRecognition expected (transformGrid actual t)
  if s.accuracy > best.accuracy ∨
      (s.accuracy = best.accuracy ∧ s.falsePositives < best.falsePositives) then
    alignOf t s
  else best

/-- The `transforms` list of `bestAlignment`, in source order. -/
def transformsList : List GridTransform :=
  [.identity, .rotate90, .rotate180, .rotate270, .flipH, .flipV, .transpose, .antiTranspose]

/-- `bestAlignment(expected, actual)`: best over the 8 symmetries, with
the untransformed score as the initial best. -/
def bestAlignment (expected actual : FixtureGrid) : Alignment :=
  transformsList.foldl (alignStep expected actual)
    (alignOf .identity (scoreRecognition expected actual))

/-- A grid with a single given `5` at the centre cell (index 40), which
is a fixed point of the 180° rotation. -/
def centerGrid : FixtureGrid :=
  (List.range 81).map (fun i => if i = 40 then some 5 else none)

/-! ## Expected-grid parsing (`parseExpectedGrid`)

The input string is modelled as a list of characters; `grid.trim()` is
modelled by dropping the ECMAScript whitespace set from both ends. -/

/-- The character set removed by JavaScript `String.prototype.trim`:
WhiteSpace (TAB, VT, FF, SP, NBSP, ZWNBSP, Unicode space separators)
and LineTerminator (LF, CR, LS, PS). -/
def isJsWhitespace (ch : Char) : Bool :=
  ch == ' ' || ch == '\t' || ch == '\n' || ch == '\r' ||
    ch == Char.ofNat 0x000B || ch == Char.ofNat 0x000C ||
    ch == Char.ofNat 0x00A0 || ch == Char.ofNat 0xFEFF ||
    ch == Char.ofNat 0x1680 ||
    (Char.ofNat 0x2000 ≤ ch && ch ≤ Char.ofNat 0x200A) ||
    ch == Char.ofNat 0x202F || ch == Char.ofNat 0x205F ||
    ch == Char.ofNat 0x3000 ||
    ch == Char.ofNat 0x2028 || ch == Char.ofNat 0x2029

/-- `grid.trim()`: strip leading and trailing JavaScript whitespace. -/
def jsTrim (s : List Char) : List Char :=
  ((s.dropWhile isJsWhitespace).reverse.dropWhile isJsWhitespace).reverse

deriving instance DecidableEq for Except

/-- One character of the `parseExpectedGrid` loop: `'1'`–`'9'` parse to
that digit, `'.'` and `'0'` to an empty cell, anything else throws. -/
def parseChar (ch : Char) : Except String (Option ℕ) :=
  if '1' ≤ ch ∧ ch ≤ '9' then .ok (some (ch.toNat - '0'.toNat))
  else if ch = '.' ∨ ch = '0' then .ok none
  else .error "invalid expected grid character"

/-- `parseExpectedGrid`: trim, require exactly 81 characters, then parse
cell by cell, failing on the first invalid character. -/
def parseExpectedGrid (s : List Char) : Except String (List (Option ℕ)) :=
  let normalized := jsTrim s
  if normalized.length ≠ 81 then .error "expected grid must have 81 characters"
  else normalized.mapM parseChar

/-! ## Per-cell confidence fusion (`recognizeSudokuFromImageFile`)

The classifier is an external collaborator; a cell's two attempts are
modelled by the digit matched by `/[1-9]/` in the reported text (if
any) together with the reported confidence. -/

/-- Outcome of one classifier attempt on one cell binarization. -/
structure OcrAttempt where
  digit : Option ℕ
  conf : ℚ

/-- Result of fusing the attempts of one non-gated cell. -/
structure CellFusion where
  cellValue : Option ℕ
  cellConf : ℚ
  usedFallback : Bool

/-- JavaScript truthiness of `bestDigit : number | null`. -/
def truthyDigit (o : Option ℕ) : Bool :=
  match o with
  | none => false
  | some d => d != 0

/-- `bestDigit`/`bestConfidence` after the primary attempt: the matched
digit with its confidence, or `null` with the initial `-1`. -/
def primaryBest (primary : OcrAttempt) : Option ℕ × ℚ :=
  match primary.digit with
  | some d => (some d, primary.conf)
  | none => (none, -1)

/-- The guard `!bestDigit || bestConfidence < 34` deciding whether the
fallback binarization is classified. -/
def shouldFallback (primary : OcrAttempt) : Bool :=
  !truthyDigit (primaryBest primary).1 || decide ((primaryBest primary).2 < 34)

/-- `bestDigit`/`bestConfidence` after the conditional fallback attempt:
the fallback result replaces the primary when it matched a digit with
strictly higher confidence. -/
def fusedBest (primary fallbackR : OcrAttempt) : Option ℕ × ℚ :=
  if shouldFallback primary = true ∧ (fallbackR.digit).isSome = true ∧
      fallbackR.conf > (primaryBest primary).2 then
    (fallbackR.digit, fallbackR.conf)
  else primaryBest primary

/-- Per-cell fusion: the final `if (bestDigit && bestConfidence > 16)`
acceptance writes the digit and confidence, else the cell stays unknown
with confidence 0. -/
def fuseCell (primary fallbackR : OcrAttempt) : CellFusion :=
  if truthyDigit (fusedBest primary fallbackR).1 = true ∧
      (fusedBest primary fallbackR).2 > 16 then
    ⟨(fusedBest primary fallbackR).1, (fusedBest primary fallbackR).2,
      shouldFallback primary⟩
  else ⟨none, 0, shouldFallback primary⟩

/-! ## Otsu global threshold (`otsuThreshold`)

Grayscale pixels are naturals `< 256`; the IEEE-double means and
between-class variance of the source are modelled by exact rationals,
built with `mkRat` (the divisions `sumB / wB` and `(sum - sumB) / wF`). -/

/-- Loop state of the `for (t = 0; t < 256; ...)` scan of
`otsuThreshold`; `done` models the `break` on an empty foreground. -/
structure OtsuState where
  wB : ℕ
  sumB : ℕ
  maxVariance : ℚ
  threshold : ℕ
  done : Bool

/-- One iteration of the Otsu scan: accumulate the background weight,
skip while it is zero, stop when the foreground empties, else update the
best between-class variance (strict improvement only). -/
def otsuStep (hist : ℕ → ℕ) (total sumW : ℕ) (st : OtsuState) (t : ℕ) : OtsuState :=
  if st.done then st
  else
    let wB := st.wB + hist t
    if wB = 0 then { st with wB := wB }
    else
      let wF := total - wB
      if wF = 0 then { st with wB := wB, done := true }
      else
        let sumB := st.sumB + t * hist t
        let mB : ℚ := mkRat sumB wB
        let mF : ℚ := mkRat (sumW - sumB) wF
        let between : ℚ := mkRat wB 1 * mkRat wF 1 * ((mB - mF) * (mB - mF))
        if between > st.maxVariance then
          ⟨wB, sumB, between, t, false⟩
        else
          ⟨wB, sumB, st.maxVariance, st.threshold, false⟩

/-- `otsuThreshold(grayPixels)`: histogram, total weighted sum, then the
256-step scan; threshold defaults to 128. -/
def otsuThreshold (pixels : List ℕ) : ℕ :=
  let hist := fun t => pixels.count t
  let total := pixels.length
  let sumW := (List.range 256).foldl (fun acc t => acc + t * hist t) 0
  ((List.range 256).foldl (otsuStep hist total sumW) ⟨0, 0, 0, 128, false⟩).threshold

/-! ## Homography solver (`solveLinearSystem8`, `homographyFrom4Points`)

IEEE doubles are modelled by exact rationals; the elimination, the
partial pivoting rule and the `1e-9` singularity threshold are kept
verbatim. -/

/-- Real-valued image point. -/
structure Pt where
  x : ℚ
  y : ℚ
deriving DecidableEq

/-- The 8×9 augmented matrix of the Gaussian elimination. -/
abbrev GMat : Type := Fin 8 → Fin 9 → ℚ

/-- Partial-pivot search over rows `col+1 .. 7`: strict improvement on
`Math.abs`, so the first maximal row wins. -/
def pivotRow (m : GMat) (col : Fin 8) : Fin 8 :=
  ((List.finRange 8).filter (fun r => decide (col < r))).foldl
    (fun piv r => if |m r col.castSucc| > |m piv col.castSucc| then r else piv) col

/-- The destructuring swap `[a[col], a[pivot]] = [a[pivot], a[col]]`. -/
def swapRows (m : GMat) (col piv : Fin 8) : GMat := fun r j =>
  if r = col then m piv j else if r = piv then m col j else m r j

/-- The row index a swap sends `r` to (its own inverse). -/
def swapIdx (col piv r : Fin 8) : Fin 8 :=
  if r = col then piv else if r = piv then col else r

/-- `for (j = col; j <= n; j++) a[col][j] /= pivotValue`. -/
def scaleRow (m : GMat) (col : Fin 8) (pv : ℚ) : GMat := fun r j =>
  if r = col ∧ col.val ≤ j.val then m r j / pv else m r j

/-- The elimination loop over every row other than `col`, from column
`col` rightward, with the factor read before the row is modified. -/
def elimCol (m : GMat) (col : Fin 8) : GMat := fun r j =>
  if r ≠ col ∧ col.val ≤ j.val then m r j - m r col.castSucc * m col j else m r j

/-- One Gauss–Jordan step at `col`: pivot search, the `1e-9`
singularity check, row swap, scaling of the pivot row, elimination in
all other rows, exactly as the source loops do. -/
def gaussStep (m : GMat) (col : Fin 8) : Option GMat :=
  let piv := pivotRow m col
  if |m piv col.castSucc| < mkRat 1 1000000000 then none
  else
    let m1 := swapRows m col piv
    some (elimCol (scaleRow m1 col (m1 col col.castSucc)) col)

/-- The `for (col = 0; col < 8; col++)` elimination loop; the first
argument counts the remaining columns. -/
def gaussAux : ℕ → ℕ → GMat → Option GMat
  | 0, _, m => some m
  | k + 1, d, m =>
    if h : d < 8 then (gaussStep m ⟨d, h⟩).bind (gaussAux k (d + 1)) else none

/-- `solveLinearSystem8(matrix, vector)`: augment, eliminate, read the
last column (`null` on a sub-`1e-9` pivot). -/
def solveLinearSystem8 (M : Fin 8 → Fin 8 → ℚ) (v : Fin 8 → ℚ) : Option (Fin 8 → ℚ) :=
  let aug : GMat := fun r j => if h : j.val < 8 then M r ⟨j.val, h⟩ else v r
  (gaussAux 8 0 aug).map (fun m => fun r => m r 8)

/-- The 8×8 direct-linear-transform matrix of `homographyFrom4Points`
(last homography coefficient fixed to 1). -/
def dltMatrix (src dst : Fin 4 → Pt) : Fin 8 → Fin 8 → ℚ :=
  ![![(src 0).x, (src 0).y, 1, 0, 0, 0, -(dst 0).x * (src 0).x, -(dst 0).x * (src 0).y],
    ![0, 0, 0, (src 0).x, (src 0).y, 1, -(dst 0).y * (src 0).x, -(dst 0).y * (src 0).y],
    ![(src 1).x, (src 1).y, 1, 0, 0, 0, -(dst 1).x * (src 1).x, -(dst 1).x * (src 1).y],
    ![0, 0, 0, (src 1).x, (src 1).y, 1, -(dst 1).y * (src 1).x, -(dst 1).y * (src 1).y],
    ![(src 2).x, (src 2).y, 1, 0, 0, 0, -(dst 2).x * (src 2).x, -(dst 2).x * (src 2).y],
    ![0, 0, 0, (src 2).x, (src 2).y, 1, -(dst 2).y * (src 2).x, -(dst 2).y * (src 2).y],
    ![(src 3).x, (src 3).y, 1, 0, 0, 0, -(dst 3).x * (src 3).x, -(dst 3).x * (src 3).y],
    ![0, 0, 0, (src 3).x, (src 3).y, 1, -(dst 3).y * (src 3).x, -(dst 3).y * (src 3).y]]

/-- The right-hand side of the DLT system. -/
def dltVector (dst : Fin 4 → Pt) : Fin 8 → ℚ :=
  ![(dst 0).x, (dst 0).y, (dst 1).x, (dst 1).y,
    (dst 2).x, (dst 2).y, (dst 3).x, (dst 3).y]

/-- `homographyFrom4Points(src, dst)`: solve the DLT system and append
the fixed ninth coefficient 1. -/
def homographyFrom4Points (src dst : Fin 4 → Pt) : Option (Fin 9 → ℚ) :=
  (solveLinearSystem8 (dltMatrix src dst) (dltVector dst)).map
    (fun s => ![s 0, s 1, s 2, s 3, s 4, s 5, s 6, s 7, 1])

/-- First coordinate of the (unnormalized) homography image of a point. -/
def homX (h : Fin 9 → ℚ) (p : Pt) : ℚ := h 0 * p.x + h 1 * p.y + h 2

/-- Second coordinate of the (unnormalized) homography image. -/
def homY (h : Fin 9 → ℚ) (p : Pt) : ℚ := h 3 * p.x + h 4 * p.y + h 5

/-- The projective denominator of the homography at a point. -/
def homW (h : Fin 9 → ℚ) (p : Pt) : ℚ := h 6 * p.x + h 7 * p.y + h 8

/-- Homogeneous 3×3 determinant of three rows. -/
def det3v (x1 y1 w1 x2 y2 w2 x3 y3 w3 : ℚ) : ℚ :=
  x1 * (y2 * w3 - w2 * y3) - y1 * (x2 * w3 - w2 * x3) + w1 * (x2 * y3 - y2 * x3)

/-- Three image points are collinear (two equal points count as
collinear) iff their homogeneous determinant vanishes. -/
def collinear3 (p q r : Pt) : Prop :=
  det3v p.x p.y 1 q.x q.y 1 r.x r.y 1 = 0

/-- No three of the four correspondence points lie on a common line. -/
def NoThreeCollinear (p : Fin 4 → Pt) : Prop :=
  ¬ collinear3 (p 0) (p 1) (p 2) ∧ ¬ collinear3 (p 0) (p 1) (p 3) ∧
    ¬ collinear3 (p 0) (p 2) (p 3) ∧ ¬ collinear3 (p 1) (p 2) (p 3)

/-- Linear-system solutions of an augmented 8×9 matrix. -/
def Sol (m : GMat) (x : Fin 8 → ℚ) : Prop :=
  ∀ r, ∑ j : Fin 8, m r j.castSucc * x j = m r 8

/-- After processing the first `d` columns, those columns hold the
identity. -/
def GaussInv (d : ℕ) (m : GMat) : Prop :=
  ∀ (r : Fin 8) (j : Fin 9), j.val < d → m r j = if r.val = j.val then 1 else 0

/-- Number of non-null cells of a board. -/
def filledCount (v : Board) : ℕ :=
  (Finset.univ.filter (fun i => (v i).isSome)).card

/-! ### The per-pixel body of `warpCanvasToSquare` -/

/-- One RGBA pixel of an `ImageData` buffer. -/
structure Color where
  r : ℕ
  g : ℕ
  b : ℕ
  a : ℕ
deriving DecidableEq

/-- The opaque white painted on out-of-bounds samples. -/
def whiteColor : Color := ⟨255, 255, 255, 255⟩

/-- JavaScript `Math.round`: round half away from minus infinity. -/
def jsRound (q : ℚ) : ℤ := ⌊q + mkRat 1 2⌋

/-- The body of the per-destination-pixel loop of `warpCanvasToSquare`:
`none` when the pixel is skipped by the `Math.abs(denom) < 1e-9` guard
(leaving the `createImageData` buffer untouched there), otherwise the
color written at destination pixel `(x, y)`. -/
def warpPixel (h : Fin 9 → ℚ) (srcW srcH : ℕ) (srcPix : ℤ → ℤ → Color)
    (x y : ℕ) : Option Color :=
  let denom := h 6 * mkRat x 1 + h 7 * mkRat y 1 + h 8
  if |denom| < mkRat 1 1000000000 then none
  else
    let sx := (h 0 * mkRat x 1 + h 1 * mkRat y 1 + h 2) / denom
    let sy := (h 3 * mkRat x 1 + h 4 * mkRat y 1 + h 5) / denom
    let ix := jsRound sx
    let iy := jsRound sy
    if ix < 0 ∨ iy < 0 ∨ (srcW : ℤ) ≤ ix ∨ (srcH : ℤ) ≤ iy then
      some whiteColor
    else
      some ⟨(srcPix ix iy).r, (srcPix ix iy).g, (srcPix ix iy).b, 255⟩

/-- The destination quad `[(0,0), (size-1,0), (size-1,size-1), (0,size-1)]`
of `warpCanvasToSquare`. -/
def dstQuad (size : ℕ) : Fin 4 → Pt :=
  ![⟨0, 0⟩, ⟨mkRat (size - 1) 1, 0⟩,
    ⟨mkRat (size - 1) 1, mkRat (size - 1) 1⟩, ⟨0, mkRat (size - 1) 1⟩]

/-- The warped image: the dst→src homography is solved once, then every
destination pixel gets `warpPixel`; `none` when the homography solve
fails. -/
def warpImage (corners : Fin 4 → Pt) (srcW srcH size : ℕ)
    (srcPix : ℤ → ℤ → Color) : Option (ℕ → ℕ → Option Color) :=
  (homographyFrom4Points (dstQuad size) corners).map
    (fun h => fun x y => warpPixel h srcW srcH srcPix x y)

/-- Corner quad (in order topLeft, topRight, bottomRight, bottomLeft)
whose dst→src homography has denominator `1 - y/450`, vanishing on the
whole destination row `y = 450`. -/
def cornersC6 : Fin 4 → Pt :=
  ![⟨0, 0⟩, ⟨mkRat (-899) 450, 0⟩,
    ⟨mkRat 899 449, mkRat 899 449⟩, ⟨0, mkRat 899 449⟩]

/-- A constant all-black opaque source bitmap. -/
def blackPix : ℤ → ℤ → Color := fun _ _ => ⟨0, 0, 0, 255⟩

/-- Concrete source square for the homography round-trip witness. -/
def sqSrc : Fin 4 → Pt := ![⟨0, 0⟩, ⟨1, 0⟩, ⟨0, 1⟩, ⟨1, 1⟩]

/-- Concrete destination quad for the homography round-trip witness. -/
def sqDst : Fin 4 → Pt := ![⟨0, 0⟩, ⟨2, 0⟩, ⟨0, 2⟩, ⟨2, 2⟩]

/-- The homography the solver returns for `sqSrc → sqDst`. -/
def hSq : Fin 9 → ℚ := ![2, 0, 0, 0, 2, 0, 0, 0, 1]

/-- The identity homography, used as a concrete warp input. -/
def hId : Fin 9 → ℚ := ![1, 0, 0, 0, 1, 0, 0, 0, 1]

/-- A constant gray opaque source bitmap. -/
def grayPix : ℤ → ℤ → Color := fun _ _ => ⟨7, 8, 9, 13⟩

/-! ### Basic facts about the pruner scan -/

theorem mem_peerIndexes {v : Board} {idx i : Fin 81} :
    i ∈ peerIndexes v idx ↔ isConflictPeer v idx i := by
  simp [peerIndexes, List.mem_filter, List.mem_finRange]

theorem sameUnit_symm {i j : Fin 81} (h : sameUnit i j) : sameUnit j i := by
  rcases h with h | h | ⟨h1, h2⟩
  · exact Or.inl h.symm
  · exact Or.inr (Or.inl h.symm)
  · exact Or.inr (Or.inr ⟨h1.symm, h2.symm⟩)

/-- Once the scan state holds a pair it never returns to `none`. -/
theorem foldl_findDropStep_isSome {v : Board} {c : Conf} :
    ∀ (l : List (Fin 81)) (p : Fin 81 × ℚ),
      (l.foldl (findDropStep v c) (some p)).isSome := by
  intro l
  induction l with
  | nil => intro p; simp
  | cons a l ih =>
    intro p
    simp only [List.foldl_cons, findDropStep]
    by_cases ha : isCand v a
    · rw [if_pos ha]
      by_cases hlt : cellScore v c a < p.2
      · rw [if_pos hlt]; exact ih _
      · rw [if_neg hlt]; exact ih _
    · rw [if_neg ha]; exact ih _

/-- Characterization of the foldl state `none`: no candidate seen. -/
theorem foldl_findDropStep_eq_none {v : Board} {c : Conf} :
    ∀ (l : List (Fin 81)) (st : Option (Fin 81 × ℚ)),
      l.foldl (findDropStep v c) st = none ↔ st = none ∧ ∀ i ∈ l, ¬ isCand v i := by
  intro l
  induction l with
  | nil => intro st; simp
  | cons a l ih =>
    intro st
    by_cases ha : isCand v a
    · rcases st with _ | js
      · simp only [List.foldl_cons, findDropStep, if_pos ha]
        constructor
        · intro h
          have := foldl_findDropStep_isSome (v := v) (c := c) l (a, cellScore v c a)
          rw [h] at this
          exact absurd this (by simp)
        · rintro ⟨-, hall⟩
          exact absurd ha (hall a (by simp))
      · simp only [List.foldl_cons, findDropStep, if_pos ha]
        constructor
        · intro h
          by_cases hlt : cellScore v c a < js.2
          · rw [if_pos hlt] at h
            have := foldl_findDropStep_isSome (v := v) (c := c) l (a, cellScore v c a)
            rw [h] at this
            exact absurd this (by simp)
          · rw [if_neg hlt] at h
            have := foldl_findDropStep_isSome (v := v) (c := c) l js
            rw [h] at this
            exact absurd this (by simp)
        · rintro ⟨h, -⟩
          exact absurd h (by simp)
    · simp only [List.foldl_cons, findDropStep, if_neg ha]
      rw [ih]
      constructor
      · rintro ⟨h1, h2⟩
        refine ⟨h1, ?_⟩
        intro i hi
        rcases List.mem_cons.mp hi with rfl | hi
        · exact ha
        · exact h2 i hi
      · rintro ⟨h1, h2⟩
        exact ⟨h1, fun i hi => h2 i (List.mem_cons_of_mem a hi)⟩

/-- Characterization of a `some` foldl state: the recorded pair is a
candidate with its own score (or the initial state), and its score is a
minimum of all candidates scanned so far, with strict improvement over
the initial state when it changed. -/
theorem foldl_findDropStep_spec {v : Board} {c : Conf} :
    ∀ (l : List (Fin 81)) (st : Option (Fin 81 × ℚ)) (j : Fin 81) (s : ℚ),
      l.foldl (findDropStep v c) st = some (j, s) →
      ((st = some (j, s) ∨ (j ∈ l ∧ isCand v j ∧ s = cellScore v c j)) ∧
        (∀ i ∈ l, isCand v i → s ≤ cellScore v c i) ∧
        (∀ p : Fin 81 × ℚ, st = some p → s ≤ p.2)) := by
  intro l
  induction l with
  | nil =>
    intro st j s h
    simp only [List.foldl_nil] at h
    refine ⟨Or.inl h, ?_, ?_⟩
    · intro i hi
      exact absurd hi (List.not_mem_nil i)
    · rintro p rfl
      simp only [Option.some_inj] at h
      simp [h]
  | cons a l ih =>
    intro st j s h
    simp only [List.foldl_cons] at h
    by_cases ha : isCand v a
    · rcases st with _ | ⟨b, t⟩
      · simp only [findDropStep, if_pos ha] at h
        rcases ih _ _ _ h with ⟨h1, h2, h3⟩
        have hmin : s ≤ cellScore v c a := h3 _ rfl
        refine ⟨?_, fun i hi hci => ?_, fun p hp => absurd hp (by simp)⟩
        · rcases h1 with h1 | h1
          · simp only [Option.some_inj, Prod.mk.injEq] at h1
            obtain ⟨rfl, rfl⟩ := h1
            exact Or.inr ⟨by simp, ha, rfl⟩
          · exact Or.inr ⟨List.mem_cons_of_mem a h1.1, h1.2.1, h1.2.2⟩
        · rcases List.mem_cons.mp hi with rfl | hi
          · exact hmin
          · exact h2 i hi hci
      · simp only [findDropStep, if_pos ha] at h
        by_cases hlt : cellScore v c a < t
        · rw [if_pos hlt] at h
          rcases ih _ _ _ h with ⟨h1, h2, h3⟩
          have hmin : s ≤ cellScore v c a := h3 _ rfl
          refine ⟨?_, fun i hi hci => ?_, ?_⟩
          · rcases h1 with h1 | h1
            · simp only [Option.some_inj, Prod.mk.injEq] at h1
              obtain ⟨rfl, rfl⟩ := h1
              exact Or.inr ⟨by simp, ha, rfl⟩
            · exact Or.inr ⟨List.mem_cons_of_mem a h1.1, h1.2.1, h1.2.2⟩
          · rcases List.mem_cons.mp hi with rfl | hi
            · exact hmin
            · exact h2 i hi hci
          · rintro p hp
            obtain rfl := Option.some_inj.mp hp
            exact le_of_lt (lt_of_le_of_lt hmin hlt)
        · rw [if_neg hlt] at h
          rcases ih _ _ _ h with ⟨h1, h2, h3⟩
          have hst : s ≤ t := h3 _ rfl
          refine ⟨?_, fun i hi hci => ?_, ?_⟩
          · rcases h1 with h1 | h1
            · exact Or.inl h1
            · exact Or.inr ⟨List.mem_cons_of_mem a h1.1, h1.2.1, h1.2.2⟩
          · rcases List.mem_cons.mp hi with rfl | hi
            · exact le_trans hst (not_lt.mp hlt)
            · exact h2 i hi hci
          · rintro p hp
            obtain rfl := Option.some_inj.mp hp
            exact hst
    · simp only [findDropStep, if_neg ha] at h
      rcases ih _ _ _ h with ⟨h1, h2, h3⟩
      refine ⟨?_, fun i hi hci => ?_, h3⟩
      · rcases h1 with h1 | h1
        · exact Or.inl h1
        · exact Or.inr ⟨List.mem_cons_of_mem a h1.1, h1.2.1, h1.2.2⟩
      · rcases List.mem_cons.mp hi with rfl | hi
        · exact absurd hci ha
        · exact h2 i hi hci

theorem findDrop_eq_none_iff {v : Board} {c : Conf} :
    findDrop v c = none ↔ ∀ i, ¬ isCand v i := by
  unfold findDrop
  rw [Option.map_eq_none', foldl_findDropStep_eq_none]
  constructor
  · rintro ⟨-, h⟩ i
    exact h i (List.mem_finRange i)
  · intro h
    exact ⟨rfl, fun i _ => h i⟩

theorem findDrop_spec {v : Board} {c : Conf} {i : Fin 81}
    (h : findDrop v c = some i) :
    isCand v i ∧ ∀ j, isCand v j → cellScore v c i ≤ cellScore v c j := by
  unfold findDrop at h
  rcases Option.map_eq_some.mp h with ⟨⟨j, s⟩, hfold, hj⟩
  rcases foldl_findDropStep_spec _ _ _ _ hfold with ⟨h1, h2, -⟩
  rcases h1 with h1 | ⟨-, hc, hs⟩
  · exact absurd h1 (by simp)
  · cases hj
    exact ⟨hc, fun k hk => hs ▸ h2 k (List.mem_finRange k) hk⟩

/-! ### Counting filled cells: the pruning loop removes one per iteration -/

theorem filledCount_le_81 (v : Board) : filledCount v ≤ 81 := by
  unfold filledCount
  calc (Finset.univ.filter (fun i => (v i).isSome)).card
      ≤ (Finset.univ : Finset (Fin 81)).card := Finset.card_filter_le _ _
    _ = 81 := by simp

theorem filledCount_update (v : Board) (i : Fin 81) (h : (v i).isSome) :
    filledCount (Function.update v i none) = filledCount v - 1 := by
  unfold filledCount
  have hset : Finset.univ.filter (fun j => ((Function.update v i none) j).isSome)
      = (Finset.univ.filter (fun j => (v j).isSome)).erase i := by
    ext j
    by_cases hj : j = i
    · subst hj
      simp [Function.update_same]
    · simp [Function.update_noteq hj, hj]
  rw [hset, Finset.card_erase_of_mem (by simp [h])]

theorem two_le_filledCount {v : Board} {i : Fin 81} (h : isCand v i) :
    2 ≤ filledCount v := by
  rcases h with ⟨hi, hpeers⟩
  rcases List.exists_mem_of_ne_nil _ hpeers with ⟨j, hj⟩
  rcases mem_peerIndexes.mp hj with ⟨hne, hjs, -, -⟩
  have hsub : ({j, i} : Finset (Fin 81)) ⊆ Finset.univ.filter (fun k => (v k).isSome) := by
    intro k hk
    rcases Finset.mem_insert.mp hk with rfl | hk
    · simp [hjs]
    · rcases Finset.mem_singleton.mp hk with rfl
      simp [hi]
  calc (2 : ℕ) = ({j, i} : Finset (Fin 81)).card := (Finset.card_pair hne).symm
    _ ≤ _ := Finset.card_le_card hsub
    _ = filledCount v := rfl

/-! ### Loop invariants -/

theorem pruneLoop_succ_none {v : Board} {c : Conf} {fuel d : ℕ}
    (hfd : findDrop v c = none) :
    pruneLoop (fuel + 1) v c d = ⟨v, c, d, true⟩ := by
  simp only [pruneLoop, hfd]

theorem pruneLoop_succ_some {v : Board} {c : Conf} {fuel d : ℕ} {k : Fin 81}
    (hfd : findDrop v c = some k) :
    pruneLoop (fuel + 1) v c d =
      pruneLoop fuel (Function.update v k none) (Function.update c k 0) (d + 1) := by
  simp only [pruneLoop, hfd]

/-- Cells only ever change to `none`; confidences of surviving cells are
untouched, removed cells get confidence 0. -/
theorem pruneLoop_sub :
    ∀ (fuel : ℕ) (v : Board) (c : Conf) (d : ℕ) (i : Fin 81),
      ((pruneLoop fuel v c d).values i = v i ∧ (pruneLoop fuel v c d).conf i = c i) ∨
        ((pruneLoop fuel v c d).values i = none ∧ (pruneLoop fuel v c d).conf i = 0) := by
  intro fuel
  induction fuel with
  | zero => intro v c d i; exact Or.inl ⟨rfl, rfl⟩
  | succ fuel ih =>
    intro v c d i
    cases hfd : findDrop v c with
    | none => rw [pruneLoop_succ_none hfd]; exact Or.inl ⟨rfl, rfl⟩
    | some k =>
      rw [pruneLoop_succ_some hfd]
      rcases ih (Function.update v k none) (Function.update c k 0) (d + 1) i with
        ⟨hv, hc⟩ | ⟨hv, hc⟩
      · by_cases hik : i = k
        · subst hik
          rw [Function.update_same] at hv
          rw [Function.update_same] at hc
          exact Or.inr ⟨hv, hc⟩
        · rw [Function.update_noteq hik] at hv
          rw [Function.update_noteq hik] at hc
          exact Or.inl ⟨hv, hc⟩
      · exact Or.inr ⟨hv, hc⟩

/-- With enough fuel the loop always ends by `break`: the final state has
no conflicted candidate, and at most `filledCount v - 1` cells were
removed. -/
theorem pruneLoop_main :
    ∀ (fuel : ℕ) (v : Board) (c : Conf) (d : ℕ), filledCount v < fuel →
      (pruneLoop fuel v c d).completed = true ∧
        (pruneLoop fuel v c d).dropped ≤ d + (filledCount v - 1) ∧
        findDrop (pruneLoop fuel v c d).values (pruneLoop fuel v c d).conf = none := by
  intro fuel
  induction fuel with
  | zero => intro v c d h; exact absurd h (by omega)
  | succ fuel ih =>
    intro v c d h
    cases hfd : findDrop v c with
    | none =>
      rw [pruneLoop_succ_none hfd]
      exact ⟨rfl, Nat.le_add_right d _, hfd⟩
    | some k =>
      have hcand : isCand v k := (findDrop_spec hfd).1
      have h2 : 2 ≤ filledCount v := two_le_filledCount hcand
      have hupd : filledCount (Function.update v k none) = filledCount v - 1 :=
        filledCount_update v k hcand.1
      have hlt : filledCount (Function.update v k none) < fuel := by omega
      rcases ih (Function.update v k none) (Function.update c k 0) (d + 1) hlt with
        ⟨hcomp, hdrop, hfinal⟩
      rw [pruneLoop_succ_some hfd]
      exact ⟨hcomp, by omega, hfinal⟩

/-- Frame property: a cell with no same-digit peer in the *original*
board is never selected, whatever sub-board the loop has reached. -/
theorem pruneLoop_frame :
    ∀ (fuel : ℕ) (w : Board) (cw : Conf) (d : ℕ) (v : Board) (i : Fin 81),
      (∀ j, w j = v j ∨ w j = none) → w i = v i →
      (∀ j, j ≠ i → sameUnit j i → v j ≠ v i) →
      (pruneLoop fuel w cw d).values i = w i ∧ (pruneLoop fuel w cw d).conf i = cw i := by
  intro fuel
  induction fuel with
  | zero => intro w cw d v i _ _ _; exact ⟨rfl, rfl⟩
  | succ fuel ih =>
    intro w cw d v i hsub hwi hfree
    cases hfd : findDrop w cw with
    | none => rw [pruneLoop_succ_none hfd]; exact ⟨rfl, rfl⟩
    | some k =>
      have hcand : isCand w k := (findDrop_spec hfd).1
      have hki : k ≠ i := by
        rintro rfl
        rcases hcand with ⟨-, hpeers⟩
        rcases List.exists_mem_of_ne_nil _ hpeers with ⟨j, hj⟩
        rcases mem_peerIndexes.mp hj with ⟨hne, hjs, hunit, heq⟩
        have hwj : w j = v j := by
          rcases hsub j with h | h
          · exact h
          · rw [h] at hjs; exact absurd hjs (by simp)
        exact hfree j hne hunit (by rw [← hwj, heq, hwi])
      rw [pruneLoop_succ_some hfd]
      have hrec := ih (Function.update w k none) (Function.update cw k 0) (d + 1) v i
        (by
          intro j
          by_cases hjk : j = k
          · subst hjk; right; exact Function.update_same _ _ _
          · rw [Function.update_noteq hjk]; exact hsub j)
        (by rw [Function.update_noteq (fun h => hki h.symm), hwi])
        hfree
      rwa [Function.update_noteq (fun h => hki h.symm),
        Function.update_noteq (fun h => hki h.symm)] at hrec

/-! ### Claim theorems for the conflict pruner -/

/-- **C1.** After `pruneConflictingDetections` no two distinct peer cells
hold the same digit, and every output cell equals its input value or is
unknown: pruning never rewrites a cell to a different digit. -/
theorem prune_no_conflicts_and_monotone (v : Board) (c : Conf)
    (hc : ∀ i, 0 ≤ c i) :
    (∀ i j, i ≠ j → sameUnit i j →
      ((pruneConflictingDetections v c).1 i).isSome →
      (pruneConflictingDetections v c).1 i ≠ (pruneConflictingDetections v c).1 j) ∧
    (∀ i, (pruneConflictingDetections v c).1 i = v i ∨
      (pruneConflictingDetections v c).1 i = none) := by
  have hlt : filledCount v < 200 := lt_of_le_of_lt (filledCount_le_81 v) (by norm_num)
  rcases pruneLoop_main 200 v c 0 hlt with ⟨-, -, hfinal⟩
  have hout : (pruneConflictingDetections v c).1 = (pruneLoop 200 v c 0).values := rfl
  constructor
  · intro i j hij hunit hsome heq
    rw [hout] at hsome heq
    have hnc := findDrop_eq_none_iff.mp hfinal i
    refine hnc ⟨hsome, ?_⟩
    have hmem : j ∈ peerIndexes (pruneLoop 200 v c 0).values i := by
      refine mem_peerIndexes.mpr ⟨fun h => hij h.symm, ?_, sameUnit_symm hunit, heq.symm⟩
      rw [← heq]; exact hsome
    exact List.ne_nil_of_mem hmem
  · intro i
    rw [hout]
    rcases pruneLoop_sub 200 v c 0 i with ⟨hv, -⟩ | ⟨hv, -⟩
    · exact Or.inl hv
    · exact Or.inr hv

/-- Witness for `prune_no_conflicts_and_monotone` at a concrete input. -/
theorem prune_no_conflicts_and_monotone_witness :
    (∀ i : Fin 81, (0 : ℚ) ≤ (fun _ => (0 : ℚ)) i) ∧
    ((∀ i j : Fin 81, i ≠ j → sameUnit i j →
      ((pruneConflictingDetections (fun _ => none) (fun _ => 0)).1 i).isSome →
      (pruneConflictingDetections (fun _ => none) (fun _ => 0)).1 i ≠
        (pruneConflictingDetections (fun _ => none) (fun _ => 0)).1 j) ∧
    (∀ i, (pruneConflictingDetections (fun _ => none) (fun _ => 0)).1 i = (fun _ => (none : Option ℕ)) i ∨
      (pruneConflictingDetections (fun _ => none) (fun _ => 0)).1 i = none)) :=
  ⟨fun _ => le_refl 0,
    prune_no_conflicts_and_monotone (fun _ => none) (fun _ => 0) (fun _ => le_refl 0)⟩

/-- **C5.** For boards restricted to digits 1–9/unknown the pruning loop
converges: at most 80 cells are dropped and the loop always exits by
finding no conflicted candidate, never by the 200-iteration cap. -/
theorem prune_terminates (v : Board) (c : Conf)
    (hdigits : ∀ i, v i = none ∨ ∃ d, 1 ≤ d ∧ d ≤ 9 ∧ v i = some d) :
    (pruneConflictingDetections v c).2 ≤ 80 ∧
      (pruneLoop 200 v c 0).completed = true := by
  have hlt : filledCount v < 200 := lt_of_le_of_lt (filledCount_le_81 v) (by norm_num)
  rcases pruneLoop_main 200 v c 0 hlt with ⟨hcomp, hdrop, -⟩
  have h81 := filledCount_le_81 v
  exact ⟨by simpa [pruneConflictingDetections] using by omega, hcomp⟩

/-- Witness for `prune_terminates` at a concrete input. -/
theorem prune_terminates_witness :
    (∀ i : Fin 81, (fun _ => (none : Option ℕ)) i = none ∨
      ∃ d, 1 ≤ d ∧ d ≤ 9 ∧ (fun _ => (none : Option ℕ)) i = some d) ∧
    ((pruneConflictingDetections (fun _ => none) (fun _ => 0)).2 ≤ 80 ∧
      (pruneLoop 200 (fun _ => none) (fun _ => 0) 0).completed = true) :=
  ⟨fun _ => Or.inl rfl,
    prune_terminates (fun _ => none) (fun _ => 0) (fun _ => Or.inl rfl)⟩

/-- **C10.** The pruner never touches a cell that is conflict-free in its
input: such a cell keeps its value and its confidence; and an input with
no two peers sharing a digit is returned unchanged with `dropped = 0`. -/
theorem prune_frame (v : Board) (c : Conf) :
    (∀ i, (∀ j, j ≠ i → sameUnit j i → v j ≠ v i) →
      (pruneConflictingDetections v c).1 i = v i ∧
      (pruneLoop 200 v c 0).conf i = c i) ∧
    ((∀ i j, i ≠ j → sameUnit i j → ¬((v i).isSome ∧ v i = v j)) →
      pruneConflictingDetections v c = (v, 0)) := by
  constructor
  · intro i hfree
    exact pruneLoop_frame 200 v c 0 v i (fun j => Or.inl rfl) rfl hfree
  · intro hnc
    have hfd : findDrop v c = none := by
      rw [findDrop_eq_none_iff]
      rintro i ⟨hsome, hpeers⟩
      rcases List.exists_mem_of_ne_nil _ hpeers with ⟨j, hj⟩
      rcases mem_peerIndexes.mp hj with ⟨hne, -, hunit, heq⟩
      exact hnc i j (fun h => hne h.symm) (sameUnit_symm hunit) ⟨hsome, heq.symm⟩
    simp only [pruneConflictingDetections, pruneLoop, hfd]

/-- Witness for `prune_frame` at a concrete input. -/
theorem prune_frame_witness :
    ((∀ i : Fin 81, (∀ j, j ≠ i → sameUnit j i →
        (fun _ => (none : Option ℕ)) j ≠ (fun _ => (none : Option ℕ)) i) →
      (pruneConflictingDetections (fun _ => none) (fun _ => 0)).1 i = (fun _ => (none : Option ℕ)) i ∧
      (pruneLoop 200 (fun _ => none) (fun _ => 0) 0).conf i = (fun _ => (0 : ℚ)) i) ∧
    ((∀ i j : Fin 81, i ≠ j → sameUnit i j →
        ¬(((fun _ => (none : Option ℕ)) i).isSome ∧
          (fun _ => (none : Option ℕ)) i = (fun _ => (none : Option ℕ)) j)) →
      pruneConflictingDetections (fun _ => none) (fun _ => 0) = ((fun _ => none), 0))) :=
  prune_frame (fun _ => none) (fun _ => 0)

/-! ### The per-iteration rule of the pruner (claim C4) -/

theorem foldl_max_le_iff (c : Conf) (x : ℚ) :
    ∀ (l : List (Fin 81)) (acc : ℚ),
      l.foldl (fun acc p => max acc (c p)) acc ≤ x ↔ acc ≤ x ∧ ∀ j ∈ l, c j ≤ x := by
  intro l
  induction l with
  | nil => intro acc; simp
  | cons a l ih =>
    intro acc
    simp only [List.foldl_cons]
    rw [ih]
    constructor
    · rintro ⟨hacc, hall⟩
      rw [max_le_iff] at hacc
      refine ⟨hacc.1, ?_⟩
      intro j hj
      rcases List.mem_cons.mp hj with rfl | hj
      · exact hacc.2
      · exact hall j hj
    · rintro ⟨hacc, hall⟩
      refine ⟨max_le hacc (hall a (by simp)), ?_⟩
      intro j hj
      exact hall j (List.mem_cons_of_mem a hj)

theorem peerMaxConf_le_iff {c : Conf} {x : ℚ} (hx : 0 ≤ x) (l : List (Fin 81)) :
    peerMaxConf c l ≤ x ↔ ∀ j ∈ l, c j ≤ x := by
  unfold peerMaxConf
  rw [foldl_max_le_iff]
  exact and_iff_right hx

/-- **C4.** In every iteration of the pruning loop: the candidate set is
exactly the filled cells having at least one peer holding the identical
digit; each candidate's score is its confidence plus 1000 when its
confidence is at least 86 and at least every conflicting peer's
confidence (else plus 0); and the selected candidate is one of lowest
score, removed by setting it to unknown with confidence 0. -/
theorem prune_iteration_rule (v : Board) (c : Conf) (hc : ∀ i, 0 ≤ c i) :
    (∀ i, isCand v i ↔ ((v i).isSome ∧ ∃ j, j ≠ i ∧ sameUnit j i ∧ v j = v i)) ∧
    (∀ i, isCand v i →
      cellScore v c i =
        c i + (if 86 ≤ c i ∧ ∀ j, isConflictPeer v i j → c j ≤ c i then 1000 else 0)) ∧
    (∀ i (fuel d : ℕ), findDrop v c = some i →
      isCand v i ∧ (∀ j, isCand v j → cellScore v c i ≤ cellScore v c j) ∧
      pruneLoop (fuel + 1) v c d =
        pruneLoop fuel (Function.update v i none) (Function.update c i 0) (d + 1)) ∧
    (findDrop v c = none ↔ ∀ i, ¬ isCand v i) := by
  refine ⟨?_, ?_, ?_, findDrop_eq_none_iff⟩
  · intro i
    unfold isCand
    constructor
    · rintro ⟨hsome, hpeers⟩
      rcases List.exists_mem_of_ne_nil _ hpeers with ⟨j, hj⟩
      rcases mem_peerIndexes.mp hj with ⟨hne, -, hunit, heq⟩
      exact ⟨hsome, j, hne, hunit, heq⟩
    · rintro ⟨hsome, j, hne, hunit, heq⟩
      refine ⟨hsome, List.ne_nil_of_mem (mem_peerIndexes.mpr ⟨hne, ?_, hunit, heq⟩)⟩
      rw [heq]; exact hsome
  · intro i _
    unfold cellScore
    congr 1
    refine if_congr (and_congr_right fun _ => ?_) rfl rfl
    rw [peerMaxConf_le_iff (hc i)]
    constructor
    · intro h j hj
      exact h j (mem_peerIndexes.mpr hj)
    · intro h j hj
      exact h j (mem_peerIndexes.mp hj)
  · intro i fuel d hfd
    rcases findDrop_spec hfd with ⟨hcand, hmin⟩
    exact ⟨hcand, hmin, pruneLoop_succ_some hfd⟩

/-- Witness for `prune_iteration_rule` at a concrete input. -/
theorem prune_iteration_rule_witness :
    (∀ i : Fin 81, (0 : ℚ) ≤ (fun _ => (0 : ℚ)) i) ∧
    ((∀ i, isCand (fun _ => none) i ↔
        (((fun _ => (none : Option ℕ)) i).isSome ∧
          ∃ j, j ≠ i ∧ sameUnit j i ∧
            (fun _ => (none : Option ℕ)) j = (fun _ => (none : Option ℕ)) i)) ∧
    (∀ i, isCand (fun _ => none) i →
      cellScore (fun _ => none) (fun _ => 0) i =
        (fun _ => (0 : ℚ)) i + (if 86 ≤ (fun _ => (0 : ℚ)) i ∧
          ∀ j, isConflictPeer (fun _ => none) i j →
            (fun _ => (0 : ℚ)) j ≤ (fun _ => (0 : ℚ)) i then 1000 else 0)) ∧
    (∀ i (fuel d : ℕ), findDrop (fun _ => none) (fun _ => 0) = some i →
      isCand (fun _ => none) i ∧
      (∀ j, isCand (fun _ => none) j →
        cellScore (fun _ => none) (fun _ => 0) i ≤ cellScore (fun _ => none) (fun _ => 0) j) ∧
      pruneLoop (fuel + 1) (fun _ => none) (fun _ => 0) d =
        pruneLoop fuel (Function.update (fun _ => none) i none)
          (Function.update (fun _ => 0) i 0) (d + 1)) ∧
    (findDrop (fun _ => none) (fun _ => 0) = none ↔ ∀ i, ¬ isCand (fun _ => none) i)) :=
  ⟨fun _ => le_refl 0, prune_iteration_rule (fun _ => none) (fun _ => 0) (fun _ => le_refl 0)⟩

/-! ### Fixture alignment (claim C8) -/

theorem getD_map_range (f : ℕ → Option ℕ) {k : ℕ} (h : k < 81) :
    ((List.range 81).map f).getD k none = f k := by
  rw [List.getD_eq_getElem _ _ (by simpa using h)]
  simp [List.getElem_map, List.getElem_range]

theorem transformGrid_length (v : FixtureGrid) (t : GridTransform) :
    (transformGrid v t).length = 81 := by
  simp [transformGrid]

theorem transformGrid_getD (v : FixtureGrid) (t : GridTransform) {k : ℕ} (h : k < 81) :
    (transformGrid v t).getD k none =
      v.getD ((sourceForTransform (k / 9) (k % 9) t).1 * 9 +
        (sourceForTransform (k / 9) (k % 9) t).2) none :=
  getD_map_range _ h

theorem transformGrid_identity (v : FixtureGrid) (hv : v.length = 81) :
    transformGrid v .identity = v := by
  refine List.ext_getElem (by rw [transformGrid_length, hv]) ?_
  intro n h1 h2
  rw [transformGrid_length] at h1
  rw [← List.getD_eq_getElem _ none h2, ← List.getD_eq_getElem _ none]
  rw [transformGrid_getD v _ h1]
  simp only [sourceForTransform]
  congr 1
  omega

theorem transformGrid_rotate180_rotate180 (v : FixtureGrid) (hv : v.length = 81) :
    transformGrid (transformGrid v .rotate180) .rotate180 = v := by
  refine List.ext_getElem (by rw [transformGrid_length, hv]) ?_
  intro n h1 h2
  rw [transformGrid_length] at h1
  rw [← List.getD_eq_getElem _ none h2, ← List.getD_eq_getElem _ none]
  rw [transformGrid_getD _ _ h1]
  simp only [sourceForTransform]
  rw [transformGrid_getD v _ (by omega)]
  simp only [sourceForTransform]
  congr 1
  omega

theorem scoreRecognition_te_def (e g : FixtureGrid) :
    (scoreRecognition e g).totalExpected =
      (List.range 81).countP (fun i => decide ((e.getD i none).isSome = true)) := rfl

theorem scoreRecognition_me_def (e g : FixtureGrid) :
    (scoreRecognition e g).matchedExpected =
      (List.range 81).countP (fun i => decide ((e.getD i none).isSome = true ∧
        g.getD i none = e.getD i none)) := rfl

theorem scoreRecognition_fp_def (e g : FixtureGrid) :
    (scoreRecognition e g).falsePositives =
      (List.range 81).countP (fun i => decide ((g.getD i none).isSome = true ∧
        g.getD i none ≠ e.getD i none)) := rfl

theorem scoreRecognition_accuracy_def (e g : FixtureGrid) :
    (scoreRecognition e g).accuracy =
      if (scoreRecognition e g).totalExpected = 0 then 0 else
        ((scoreRecognition e g).matchedExpected : ℚ) /
          (scoreRecognition e g).totalExpected := rfl

theorem scoreRecognition_matched_le (e g : FixtureGrid) :
    (scoreRecognition e g).matchedExpected ≤ (scoreRecognition e g).totalExpected := by
  rw [scoreRecognition_me_def, scoreRecognition_te_def]
  refine List.countP_mono_left ?_
  intro x _ h
  simp only [decide_eq_true_eq] at h ⊢
  exact h.1

theorem scoreRecognition_self (e : FixtureGrid) :
    (scoreRecognition e e).matchedExpected = (scoreRecognition e e).totalExpected ∧
    (scoreRecognition e e).falsePositives = 0 ∧
    ((scoreRecognition e e).totalExpected ≠ 0 → (scoreRecognition e e).accuracy = 1) := by
  have hme : (scoreRecognition e e).matchedExpected = (scoreRecognition e e).totalExpected := by
    rw [scoreRecognition_me_def, scoreRecognition_te_def]
    exact List.countP_congr (by intro x _; simp)
  refine ⟨hme, ?_, ?_⟩
  · rw [scoreRecognition_fp_def]
    exact List.countP_eq_zero.mpr (by intro x _; simp)
  · intro hne
    rw [scoreRecognition_accuracy_def, if_neg hne, hme]
    exact div_self (by exact_mod_cast hne)

theorem scoreRecognition_accuracy_le_one (e g : FixtureGrid) :
    (scoreRecognition e g).accuracy ≤ 1 := by
  rw [scoreRecognition_accuracy_def]
  split
  · norm_num
  · rename_i hne
    rw [div_le_one (by exact_mod_cast Nat.pos_of_ne_zero hne)]
    exact_mod_cast scoreRecognition_matched_le e g

/-- When a pointwise-weaker predicate has the same count, the two agree
on the list. -/
theorem countP_eq_of_imp {α : Type} {p q : α → Bool} :
    ∀ l : List α, (∀ x ∈ l, p x = true → q x = true) →
      l.countP p = l.countP q → ∀ x ∈ l, q x = true → p x = true := by
  intro l
  induction l with
  | nil => intro _ _ x hx; exact absurd hx (List.not_mem_nil x)
  | cons a l ih =>
    intro himp hcount x hx hqx
    rw [List.countP_cons, List.countP_cons] at hcount
    have hmono : l.countP p ≤ l.countP q :=
      List.countP_mono_left (fun y hy => himp y (List.mem_cons_of_mem a hy))
    have hpa : p a = true → q a = true := himp a (by simp)
    have htail : l.countP p = l.countP q ∧ (p a = true ↔ q a = true) := by
      by_cases hp : p a = true
      · rw [if_pos hp, if_pos (hpa hp)] at hcount
        exact ⟨by omega, by simp [hp, hpa hp]⟩
      · rw [if_neg hp] at hcount
        by_cases hq : q a = true
        · rw [if_pos hq] at hcount
          omega
        · rw [if_neg hq] at hcount
          constructor
          · omega
          · simp [hp, hq]
    rcases List.mem_cons.mp hx with rfl | hx
    · exact htail.2.mpr hqx
    · exact ih (fun y hy => himp y (List.mem_cons_of_mem a hy)) htail.1 x hx hqx

/-- A perfect score (accuracy 1, no false positives) forces the two
81-cell grids to be equal. -/
theorem scoreRecognition_perfect_eq (e g : FixtureGrid)
    (he : e.length = 81) (hg : g.length = 81)
    (hacc : (scoreRecognition e g).accuracy = 1)
    (hfp : (scoreRecognition e g).falsePositives = 0) : g = e := by
  have hne : (scoreRecognition e g).totalExpected ≠ 0 := by
    intro h0
    rw [scoreRecognition_accuracy_def, if_pos h0] at hacc
    norm_num at hacc
  have hme : (scoreRecognition e g).matchedExpected = (scoreRecognition e g).totalExpected := by
    rw [scoreRecognition_accuracy_def, if_neg hne] at hacc
    have := (div_eq_one_iff_eq (by exact_mod_cast hne)).mp hacc
    exact_mod_cast this
  rw [scoreRecognition_me_def, scoreRecognition_te_def] at hme
  have hmatch := countP_eq_of_imp (List.range 81)
    (by intro x _ h; simp only [decide_eq_true_eq] at h ⊢; exact h.1) hme
  rw [scoreRecognition_fp_def] at hfp
  have hnofp := List.countP_eq_zero.mp hfp
  refine List.ext_getElem (by rw [hg, he]) ?_
  intro n h1 h2
  have hn81 : n < 81 := by rw [hg] at h1; exact h1
  rw [← List.getD_eq_getElem g none (by rw [hg]; exact hn81),
    ← List.getD_eq_getElem e none h2]
  have hn : n ∈ List.range 81 := List.mem_range.mpr hn81
  by_cases hsome : (e.getD n none).isSome
  · have hm := hmatch n hn (by simp only [decide_eq_true_eq]; exact hsome)
    simp only [decide_eq_true_eq] at hm
    exact hm.2
  · have hen : e.getD n none = none := Option.not_isSome_iff_eq_none.mp hsome
    by_contra hne2
    have hgs : (g.getD n none).isSome := by
      cases hgn : g.getD n none with
      | none => exact absurd (by rw [hgn, hen]) hne2
      | some d2 => simp
    exact hnofp n hn (by simp only [decide_eq_true_eq]; exact ⟨hgs, hne2⟩)

/-- The fold of `bestAlignment` only ever holds a transform together
with its own score. -/
theorem foldl_alignStep_shape (e a : FixtureGrid) :
    ∀ (l : List GridTransform) (b : Alignment),
      (∃ t, b = alignOf t (scoreRecognition e (transformGrid a t))) →
      ∃ t, l.foldl (alignStep e a) b = alignOf t (scoreRecognition e (transformGrid a t)) := by
  intro l
  induction l with
  | nil => intro b hb; exact hb
  | cons t0 l ih =>
    intro b hb
    rw [List.foldl_cons]
    refine ih _ ?_
    unfold alignStep
    dsimp only
    split
    · exact ⟨t0, rfl⟩
    · exact hb

/-- Once the running best has accuracy 1 and no false positives, no
later transform can replace it. -/
theorem foldl_alignStep_perfect (e a : FixtureGrid) :
    ∀ (l : List GridTransform) (b : Alignment),
      b.accuracy = 1 → b.falsePositives = 0 → l.foldl (alignStep e a) b = b := by
  intro l
  induction l with
  | nil => intro b _ _; rfl
  | cons t0 l ih =>
    intro b hacc hfp
    rw [List.foldl_cons]
    have hstep : alignStep e a b t0 = b := by
      unfold alignStep
      dsimp only
      split
      · rename_i hcond
        exfalso
        rcases hcond with hlt | ⟨-, hfplt⟩
        · rw [hacc] at hlt
          exact absurd hlt (not_lt.mpr (scoreRecognition_accuracy_le_one e _))
        · rw [hfp] at hfplt
          exact absurd hfplt (Nat.not_lt_zero _)
      · rfl
    rw [hstep]
    exact ih b hacc hfp

/-- **C8 (amended).** If `actual` is the 180° rotation of an 81-cell
`expected` with at least one given digit, `bestAlignment` returns
accuracy 1 with 0 false positives, and the returned transform maps
`actual` exactly back onto `expected` — though the returned transform is
not always the literal `rotate180` (an earlier symmetry can tie). -/
theorem bestAlignment_rotate180_amended (e a : FixtureGrid)
    (he : e.length = 81)
    (hfilled : ∃ i ∈ List.range 81, (e.getD i none).isSome)
    (ha : a = transformGrid e .rotate180) :
    (bestAlignment e a).accuracy = 1 ∧
    (bestAlignment e a).falsePositives = 0 ∧
    transformGrid a (bestAlignment e a).transform = e := by
  subst ha
  set a := transformGrid e .rotate180 with ha
  have hal : a.length = 81 := transformGrid_length e _
  have hte : (scoreRecognition e e).totalExpected ≠ 0 := by
    rw [scoreRecognition_te_def]
    have : 0 < (List.range 81).countP (fun i => decide ((e.getD i none).isSome = true)) := by
      rw [List.countP_pos]
      rcases hfilled with ⟨i, hi, hsome⟩
      exact ⟨i, hi, by simpa using hsome⟩
    omega
  have hrot : transformGrid a .rotate180 = e := transformGrid_rotate180_rotate180 e he
  have hperf : (scoreRecognition e (transformGrid a .rotate180)).accuracy = 1 ∧
      (scoreRecognition e (transformGrid a .rotate180)).falsePositives = 0 := by
    rw [hrot]
    rcases scoreRecognition_self e with ⟨-, hfp, hac⟩
    exact ⟨hac hte, hfp⟩
  -- the interesting part of the fold: state after processing `rotate180`
  have hmain : ∀ b : Alignment,
      (∃ t, b = alignOf t (scoreRecognition e (transformGrid a t))) →
      ((alignStep e a b .rotate180).accuracy = 1 ∧
        (alignStep e a b .rotate180).falsePositives = 0 ∧
        transformGrid a (alignStep e a b .rotate180).transform = e) := by
    rintro b ⟨t2, rfl⟩
    unfold alignStep
    dsimp only
    split
    · exact ⟨hperf.1, hperf.2, hrot⟩
    · rename_i hcond
      push_neg at hcond
      rcases hcond with ⟨hc1, hc2⟩
      rw [hperf.1] at hc1 hc2
      have hacc2 : (scoreRecognition e (transformGrid a t2)).accuracy = 1 :=
        le_antisymm (scoreRecognition_accuracy_le_one e _) hc1
      have hfp2 : (scoreRecognition e (transformGrid a t2)).falsePositives = 0 := by
        have hle := hc2 hacc2.symm
        rw [hperf.2] at hle
        exact Nat.le_zero.mp hle
      exact ⟨hacc2, hfp2, scoreRecognition_perfect_eq e _ he
        (transformGrid_length a t2) hacc2 hfp2⟩
  -- run the fold: prefix [identity, rotate90], the rotate180 step, suffix
  have hinit : alignOf .identity (scoreRecognition e a) =
      alignOf .identity (scoreRecognition e (transformGrid a .identity)) := by
    rw [transformGrid_identity a hal]
  have hsplit : bestAlignment e a =
      [GridTransform.rotate270, .flipH, .flipV, .transpose, .antiTranspose].foldl
        (alignStep e a)
        (alignStep e a
          ([GridTransform.identity, .rotate90].foldl (alignStep e a)
            (alignOf .identity (scoreRecognition e a))) .rotate180) := by
    unfold bestAlignment transformsList
    simp only [List.foldl_cons, List.foldl_nil]
  rcases foldl_alignStep_shape e a [GridTransform.identity, .rotate90]
      (alignOf .identity (scoreRecognition e a))
      ⟨.identity, hinit⟩ with ⟨t2, ht2⟩
  have hb3 := hmain _ ⟨t2, ht2⟩
  rw [hsplit, foldl_alignStep_perfect e a _ _ hb3.1 hb3.2.1]
  exact hb3

set_option maxRecDepth 10000 in
/-- Witness for `bestAlignment_rotate180_amended` at a concrete input. -/
theorem bestAlignment_rotate180_amended_witness :
    (centerGrid.length = 81 ∧
      (∃ i ∈ List.range 81, (centerGrid.getD i none).isSome) ∧
      transformGrid centerGrid .rotate180 = transformGrid centerGrid .rotate180) ∧
    ((bestAlignment centerGrid (transformGrid centerGrid .rotate180)).accuracy = 1 ∧
      (bestAlignment centerGrid (transformGrid centerGrid .rotate180)).falsePositives = 0 ∧
      transformGrid (transformGrid centerGrid .rotate180)
        (bestAlignment centerGrid (transformGrid centerGrid .rotate180)).transform =
          centerGrid) :=
  ⟨⟨by decide, ⟨40, by decide, by decide⟩, rfl⟩,
    bestAlignment_rotate180_amended centerGrid _ (by decide) ⟨40, by decide, by decide⟩ rfl⟩

set_option maxRecDepth 100000 in
/-- **C8 (counterexample).** With `expected` holding a single centre
digit — a grid fixed by the 180° rotation — `actual = rotate180(expected)`
holds, yet `bestAlignment` returns the transform `identity`, not
`rotate180` as the claim states (ties keep the earlier transform). -/
theorem bestAlignment_rotate180_counterexample :
    transformGrid centerGrid .rotate180 = centerGrid ∧
    (bestAlignment centerGrid (transformGrid centerGrid .rotate180)).transform =
      .identity ∧
    GridTransform.identity ≠ .rotate180 :=
  ⟨by decide, of_decide_eq_true (by with_unfolding_all rfl), by decide⟩

/-! ### Expected-grid parsing (claim C9) -/

theorem parseChar_ok {ch : Char}
    (h : ('1' ≤ ch ∧ ch ≤ '9') ∨ ch = '.' ∨ ch = '0') :
    parseChar ch = .ok (if '1' ≤ ch ∧ ch ≤ '9' then
      some (ch.toNat - '0'.toNat) else none) := by
  unfold parseChar
  by_cases h1 : '1' ≤ ch ∧ ch ≤ '9'
  · rw [if_pos h1, if_pos h1]
  · rw [if_neg h1, if_neg h1, if_pos]
    rcases h with h | h
    · exact absurd h h1
    · exact h

theorem parseChar_err {ch : Char}
    (h : ¬(('1' ≤ ch ∧ ch ≤ '9') ∨ ch = '.' ∨ ch = '0')) :
    parseChar ch = .error "invalid expected grid character" := by
  have h1 : ¬('1' ≤ ch ∧ ch ≤ '9') := fun hx => h (Or.inl hx)
  have h2 : ¬(ch = '.' ∨ ch = '0') := fun hx => h (Or.inr hx)
  unfold parseChar
  rw [if_neg h1, if_neg h2]

/-- Per-character validity: the claim's set `0-9.` coincides with the
three branches of the code. -/
theorem validChar_iff (ch : Char) :
    (('0' ≤ ch ∧ ch ≤ '9') ∨ ch = '.') ↔
      (('1' ≤ ch ∧ ch ≤ '9') ∨ ch = '.' ∨ ch = '0') := by
  have hv0 : ('0' : Char).val.toNat = 48 := by decide
  have hv1 : ('1' : Char).val.toNat = 49 := by decide
  have hv9 : ('9' : Char).val.toNat = 57 := by decide
  have hle : ∀ a b : Char, a ≤ b ↔ a.val.toNat ≤ b.val.toNat := fun a b => Iff.rfl
  have hch : ∀ d : Char, (ch = d ↔ ch.val.toNat = d.val.toNat) := by
    intro d
    constructor
    · rintro rfl; rfl
    · intro h
      exact Char.ext (UInt32.ext h)
  constructor
  · rintro (⟨hl, hr⟩ | h)
    · rw [hle, hv0] at hl
      rw [hle, hv9] at hr
      by_cases h0 : ch.val.toNat = 48
      · exact Or.inr (Or.inr ((hch '0').mpr (by rw [hv0]; exact h0)))
      · refine Or.inl ⟨?_, ?_⟩
        · rw [hle, hv1]; omega
        · rw [hle, hv9]; exact hr
    · exact Or.inr (Or.inl h)
  · rintro (⟨hl, hr⟩ | h | h)
    · refine Or.inl ⟨?_, hr⟩
      rw [hle, hv1] at hl
      rw [hle, hv0]
      omega
    · exact Or.inr h
    · subst h
      exact Or.inl ⟨le_refl _, by decide⟩

/-- Behaviour of the cell-by-cell parsing pass. -/
theorem mapM_parseChar_spec :
    ∀ l : List Char,
      ((l.mapM parseChar).isOk = true ↔
        ∀ ch ∈ l, ('1' ≤ ch ∧ ch ≤ '9') ∨ ch = '.' ∨ ch = '0') ∧
      (∀ vals, l.mapM parseChar = .ok vals →
        vals = l.map (fun ch =>
          if '1' ≤ ch ∧ ch ≤ '9' then some (ch.toNat - '0'.toNat) else none)) := by
  intro l
  induction l with
  | nil =>
    constructor
    · constructor
      · intro _ ch hch
        exact absurd hch (List.not_mem_nil ch)
      · intro _
        rfl
    · intro vals h
      have h2 : (Except.ok [] : Except String (List (Option ℕ))) = .ok vals := h
      injection h2 with h2
      rw [← h2]
      rfl
  | cons a l ih =>
    rw [List.mapM_cons]
    by_cases ha : ('1' ≤ a ∧ a ≤ '9') ∨ a = '.' ∨ a = '0'
    · rw [parseChar_ok ha]
      cases hrest : l.mapM parseChar with
      | error e =>
        constructor
        · constructor
          · intro hok
            exact absurd (show (false : Bool) = true from hok) (by simp)
          · intro hall
            have hok := ih.1.mpr (fun ch hch => hall ch (List.mem_cons_of_mem a hch))
            rw [hrest] at hok
            exact absurd (show (false : Bool) = true from hok) (by simp)
        · intro vals h
          have h2 : (Except.error e : Except String (List (Option ℕ))) = .ok vals := h
          exact absurd h2 (by simp)
      | ok rest =>
        constructor
        · constructor
          · intro _ ch hch
            rcases List.mem_cons.mp hch with rfl | hch
            · exact ha
            · refine ih.1.mp ?_ ch hch
              rw [hrest]
              rfl
          · intro _
            rfl
        · intro vals h
          have h2 : Except.ok ((if '1' ≤ a ∧ a ≤ '9' then
              some (a.toNat - '0'.toNat) else none) :: rest) = Except.ok vals := h
          injection h2 with h2
          rw [← h2, List.map_cons, ih.2 rest hrest]
    · rw [parseChar_err ha]
      constructor
      · constructor
        · intro hok
          exact absurd (show (false : Bool) = true from hok) (by simp)
        · intro hall
          exact absurd (hall a (by simp)) ha
      · intro vals h
        have h2 : (Except.error "invalid expected grid character" :
            Except String (List (Option ℕ))) = .ok vals := h
        exact absurd h2 (by simp)

/-- **C9 (amended).** `parseExpectedGrid` fails with a validation error
exactly when, after trimming surrounding whitespace, the string's length
is not 81 or some character lies outside `0-9` and `.`; on success the
81 cells map `'1'`–`'9'` to that digit and `'.'`/`'0'` to empty. -/
theorem parseExpectedGrid_spec (s : List Char) :
    ((∃ msg, parseExpectedGrid s = .error msg) ↔
      ¬((jsTrim s).length = 81 ∧
        ∀ ch ∈ jsTrim s, ('0' ≤ ch ∧ ch ≤ '9') ∨ ch = '.')) ∧
    (∀ vals, parseExpectedGrid s = .ok vals →
      vals.length = 81 ∧
      vals = (jsTrim s).map (fun ch =>
        if '1' ≤ ch ∧ ch ≤ '9' then some (ch.toNat - '0'.toNat) else none)) := by
  have hdef : parseExpectedGrid s =
      if (jsTrim s).length ≠ 81 then .error "expected grid must have 81 characters"
      else (jsTrim s).mapM parseChar := rfl
  rcases mapM_parseChar_spec (jsTrim s) with ⟨hiff, hval⟩
  by_cases hlen : (jsTrim s).length = 81
  · rw [hdef, if_neg (not_not_intro hlen)]
    constructor
    · constructor
      · rintro ⟨msg, hmsg⟩ ⟨-, hall⟩
        have hok : ((jsTrim s).mapM parseChar).isOk = true :=
          hiff.mpr (fun ch hch => (validChar_iff ch).mp (hall ch hch))
        rw [hmsg] at hok
        exact absurd (show (false : Bool) = true from hok) (by simp)
      · intro hnot
        cases hm : (jsTrim s).mapM parseChar with
        | error msg => exact ⟨msg, rfl⟩
        | ok vals =>
          exfalso
          refine hnot ⟨hlen, ?_⟩
          intro ch hch
          refine (validChar_iff ch).mpr (hiff.mp ?_ ch hch)
          rw [hm]
          rfl
    · intro vals h
      have hv := hval vals h
      refine ⟨?_, hv⟩
      rw [hv, List.length_map, hlen]
  · rw [hdef, if_pos hlen]
    constructor
    · constructor
      · intro _
        exact fun hc => hlen hc.1
      · intro _
        exact ⟨"expected grid must have 81 characters", rfl⟩
    · intro vals h
      exact absurd (show (Except.error "expected grid must have 81 characters" :
        Except String (List (Option ℕ))) = .ok vals from h) (by simp)

set_option maxRecDepth 10000 in
/-- Witness for `parseExpectedGrid_spec` at a concrete input. -/
theorem parseExpectedGrid_spec_witness :
    parseExpectedGrid (List.replicate 81 '.') = .ok (List.replicate 81 none) ∧
    ((List.replicate 81 (none : Option ℕ)).length = 81 ∧
      List.replicate 81 (none : Option ℕ) = (jsTrim (List.replicate 81 '.')).map
        (fun ch => if '1' ≤ ch ∧ ch ≤ '9' then some (ch.toNat - '0'.toNat) else none)) :=
  ⟨by decide, (parseExpectedGrid_spec (List.replicate 81 '.')).2
    (List.replicate 81 none) (by decide)⟩

set_option maxRecDepth 10000 in
/-- **C9 (counterexample).** A leading space makes the raw string 82
characters long and contains a character outside `0-9.`, so the claim as
stated demands a validation error; but the code trims first and parses
this input successfully. -/
theorem parseExpectedGrid_counterexample :
    (' ' :: List.replicate 81 '.').length ≠ 81 ∧
    ¬(('0' ≤ ' ' ∧ ' ' ≤ '9') ∨ ' ' = '.') ∧
    parseExpectedGrid (' ' :: List.replicate 81 '.') = .ok (List.replicate 81 none) :=
  ⟨by decide, by decide, by decide⟩

/-! ### Confidence fusion (claim C7) -/

theorem fuseCell_usedFallback (primary fallbackR : OcrAttempt) :
    (fuseCell primary fallbackR).usedFallback = shouldFallback primary := by
  unfold fuseCell
  split <;> rfl

theorem truthyDigit_primaryBest {primary : OcrAttempt}
    (hp : ∀ d, primary.digit = some d → 1 ≤ d ∧ d ≤ 9) :
    truthyDigit (primaryBest primary).1 = true ↔ primary.digit ≠ none := by
  unfold primaryBest
  cases h0 : primary.digit with
  | none => simp [truthyDigit]
  | some d =>
    have hd := hp d h0
    simp [truthyDigit]
    omega

theorem shouldFallback_iff {primary : OcrAttempt}
    (hp : ∀ d, primary.digit = some d → 1 ≤ d ∧ d ≤ 9) :
    shouldFallback primary = true ↔ (primary.digit = none ∨ primary.conf < 34) := by
  unfold shouldFallback
  rw [Bool.or_eq_true, Bool.not_eq_true']
  constructor
  · rintro (h | h)
    · left
      by_contra hne
      exact absurd ((truthyDigit_primaryBest hp).mpr hne) (by rw [h]; simp)
    · rcases h0 : primary.digit with - | d
      · exact Or.inl rfl
      · right
        have : (primaryBest primary).2 = primary.conf := by unfold primaryBest; rw [h0]
        rw [decide_eq_true_eq, this] at h
        exact h
  · rintro (h | h)
    · left
      simp [primaryBest, truthyDigit, h]
    · rcases h0 : primary.digit with - | d
      · left
        unfold primaryBest
        rw [h0]
        rfl
      · right
        have h2 : (primaryBest primary).2 = primary.conf := by unfold primaryBest; rw [h0]
        rw [decide_eq_true_eq, h2]
        exact h

/-- **C7.** For every non-gated cell and all classifier outputs (digits
1–9): the fallback binarization is classified exactly when the primary
attempt found no digit or reported confidence below 34; the fallback
result replaces the primary exactly when it found a digit with strictly
higher confidence than the primary attempt's recorded confidence
(−1 when no digit was found); and a digit is written to the board with
its confidence exactly when the winning attempt found a digit with
confidence strictly greater than 16, the cell otherwise remaining
unknown with confidence 0. -/
theorem fuseCell_rule (primary fallbackR : OcrAttempt)
    (hp : ∀ d, primary.digit = some d → 1 ≤ d ∧ d ≤ 9)
    (hf : ∀ d, fallbackR.digit = some d → 1 ≤ d ∧ d ≤ 9) :
    ((fuseCell primary fallbackR).usedFallback = true ↔
      (primary.digit = none ∨ primary.conf < 34)) ∧
    (fusedBest primary fallbackR =
      if (primary.digit = none ∨ primary.conf < 34) ∧ (fallbackR.digit).isSome = true ∧
          fallbackR.conf > (if (primary.digit).isSome then primary.conf else -1) then
        (fallbackR.digit, fallbackR.conf)
      else primaryBest primary) ∧
    ((fuseCell primary fallbackR).cellValue ≠ none ↔
      ((fusedBest primary fallbackR).1 ≠ none ∧ (fusedBest primary fallbackR).2 > 16)) ∧
    ((fusedBest primary fallbackR).1 ≠ none ∧ (fusedBest primary fallbackR).2 > 16 →
      (fuseCell primary fallbackR).cellValue = (fusedBest primary fallbackR).1 ∧
      (fuseCell primary fallbackR).cellConf = (fusedBest primary fallbackR).2) ∧
    (¬((fusedBest primary fallbackR).1 ≠ none ∧ (fusedBest primary fallbackR).2 > 16) →
      (fuseCell primary fallbackR).cellValue = none ∧
      (fuseCell primary fallbackR).cellConf = 0) := by
  have htrf : truthyDigit (fusedBest primary fallbackR).1 = true ↔
      (fusedBest primary fallbackR).1 ≠ none := by
    unfold fusedBest
    split
    · rename_i hcond
      rcases hcond with ⟨-, hsome, -⟩
      rcases hd : fallbackR.digit with - | d
      · rw [hd] at hsome
        exact absurd hsome (by simp)
      · have := hf d hd
        simp [hd, truthyDigit]
        omega
    · unfold primaryBest
      cases h0 : primary.digit with
      | none => simp [truthyDigit]
      | some d =>
        have := hp d h0
        simp [truthyDigit]
        omega
  refine ⟨?_, ?_, ?_, ?_, ?_⟩
  · rw [fuseCell_usedFallback]
    exact shouldFallback_iff hp
  · unfold fusedBest
    refine if_congr (and_congr (shouldFallback_iff hp) (and_congr_right fun _ => ?_)) rfl rfl
    have h2 : (primaryBest primary).2 =
        if (primary.digit).isSome then primary.conf else -1 := by
      unfold primaryBest
      cases primary.digit <;> rfl
    rw [h2]
  · unfold fuseCell
    split
    · rename_i hcond
      constructor
      · intro _
        exact ⟨htrf.mp hcond.1, hcond.2⟩
      · intro _
        exact htrf.mp hcond.1
    · rename_i hcond
      constructor
      · intro h
        exact absurd rfl h
      · intro h2
        exact absurd ⟨htrf.mpr h2.1, h2.2⟩ hcond
  · intro h2
    unfold fuseCell
    rw [if_pos ⟨htrf.mpr h2.1, h2.2⟩]
    exact ⟨rfl, rfl⟩
  · intro h2
    unfold fuseCell
    rw [if_neg (fun hc => h2 ⟨htrf.mp hc.1, hc.2⟩)]
    exact ⟨rfl, rfl⟩

/-- Witness for `fuseCell_rule` at a concrete input. -/
theorem fuseCell_rule_witness :
    ((∀ d, (OcrAttempt.mk (some 5) 80).digit = some d → 1 ≤ d ∧ d ≤ 9) ∧
      (∀ d, (OcrAttempt.mk none 0).digit = some d → 1 ≤ d ∧ d ≤ 9)) ∧
    (((fuseCell (OcrAttempt.mk (some 5) 80) (OcrAttempt.mk none 0)).usedFallback = true ↔
      ((OcrAttempt.mk (some 5) 80).digit = none ∨ (OcrAttempt.mk (some 5) 80).conf < 34)) ∧
    (fusedBest (OcrAttempt.mk (some 5) 80) (OcrAttempt.mk none 0) =
      if ((OcrAttempt.mk (some 5) 80).digit = none ∨ (OcrAttempt.mk (some 5) 80).conf < 34) ∧
          ((OcrAttempt.mk none (0 : ℚ)).digit).isSome = true ∧
          (OcrAttempt.mk none (0 : ℚ)).conf >
            (if ((OcrAttempt.mk (some 5) 80).digit).isSome then
              (OcrAttempt.mk (some 5) 80).conf else -1) then
        ((OcrAttempt.mk none (0 : ℚ)).digit, (OcrAttempt.mk none (0 : ℚ)).conf)
      else primaryBest (OcrAttempt.mk (some 5) 80)) ∧
    ((fuseCell (OcrAttempt.mk (some 5) 80) (OcrAttempt.mk none 0)).cellValue ≠ none ↔
      ((fusedBest (OcrAttempt.mk (some 5) 80) (OcrAttempt.mk none 0)).1 ≠ none ∧
        (fusedBest (OcrAttempt.mk (some 5) 80) (OcrAttempt.mk none 0)).2 > 16)) ∧
    ((fusedBest (OcrAttempt.mk (some 5) 80) (OcrAttempt.mk none 0)).1 ≠ none ∧
        (fusedBest (OcrAttempt.mk (some 5) 80) (OcrAttempt.mk none 0)).2 > 16 →
      (fuseCell (OcrAttempt.mk (some 5) 80) (OcrAttempt.mk none 0)).cellValue =
        (fusedBest (OcrAttempt.mk (some 5) 80) (OcrAttempt.mk none 0)).1 ∧
      (fuseCell (OcrAttempt.mk (some 5) 80) (OcrAttempt.mk none 0)).cellConf =
        (fusedBest (OcrAttempt.mk (some 5) 80) (OcrAttempt.mk none 0)).2) ∧
    (¬((fusedBest (OcrAttempt.mk (some 5) 80) (OcrAttempt.mk none 0)).1 ≠ none ∧
        (fusedBest (OcrAttempt.mk (some 5) 80) (OcrAttempt.mk none 0)).2 > 16) →
      (fuseCell (OcrAttempt.mk (some 5) 80) (OcrAttempt.mk none 0)).cellValue = none ∧
      (fuseCell (OcrAttempt.mk (some 5) 80) (OcrAttempt.mk none 0)).cellConf = 0)) :=
  ⟨⟨fun d h => by cases h; exact ⟨by norm_num, by norm_num⟩,
    fun d h => by cases h⟩,
    fuseCell_rule (OcrAttempt.mk (some 5) 80) (OcrAttempt.mk none 0)
      (fun d h => by cases h; exact ⟨by norm_num, by norm_num⟩)
      (fun d h => by cases h)⟩

/-! ### Otsu threshold on two-valued histograms (claim C3) -/

theorem foldl_add_shift (f : ℕ → ℕ) :
    ∀ (l : List ℕ) (acc : ℕ),
      l.foldl (fun a t => a + f t) acc = acc + l.foldl (fun a t => a + f t) 0 := by
  intro l
  induction l with
  | nil => intro acc; simp
  | cons x l ih =>
    intro acc
    rw [List.foldl_cons, List.foldl_cons, ih (acc + f x), ih (0 + f x)]
    omega

theorem foldl_weighted_eq_sum (f : ℕ → ℕ) :
    ∀ n : ℕ, (List.range n).foldl (fun a t => a + f t) 0 = ∑ t ∈ Finset.range n, f t := by
  intro n
  induction n with
  | zero => simp
  | succ n ih =>
    rw [List.range_succ, List.foldl_append, foldl_add_shift, ih,
      Finset.sum_range_succ, List.foldl_cons, List.foldl_nil]
    omega

theorem length_eq_count_add_count {a b : ℕ} (hab : a ≠ b) :
    ∀ l : List ℕ, (∀ p ∈ l, p = a ∨ p = b) → l.length = l.count a + l.count b := by
  intro l
  induction l with
  | nil => intro _; simp
  | cons x l ih =>
    intro hsupp
    have hx := hsupp x (by simp)
    have hl := ih (fun p hp => hsupp p (List.mem_cons_of_mem x hp))
    rcases hx with rfl | rfl
    · rw [List.count_cons_self, List.count_cons_of_ne (by exact fun h => hab h.symm)]
      simp [hl]
      omega
    · rw [List.count_cons_self, List.count_cons_of_ne hab]
      simp [hl]
      omega

theorem otsu_fold_done (hist : ℕ → ℕ) (total sumW : ℕ) :
    ∀ (l : List ℕ) (st : OtsuState), st.done = true →
      l.foldl (otsuStep hist total sumW) st = st := by
  intro l
  induction l with
  | nil => intro st _; rfl
  | cons t l ih =>
    intro st hdone
    rw [List.foldl_cons]
    have hstep : otsuStep hist total sumW st t = st := by
      unfold otsuStep
      rw [if_pos hdone]
    rw [hstep]
    exact ih st hdone

theorem otsu_fold_zero (hist : ℕ → ℕ) (total sumW : ℕ) :
    ∀ (l : List ℕ) (st : OtsuState),
      (∀ t ∈ l, hist t = 0) → st.wB = 0 → st.done = false →
      l.foldl (otsuStep hist total sumW) st = st := by
  intro l
  induction l with
  | nil => intro st _ _ _; rfl
  | cons t l ih =>
    intro st hzero hwB hdone
    rw [List.foldl_cons]
    have hstep : otsuStep hist total sumW st t = st := by
      unfold otsuStep
      rw [if_neg (by rw [hdone]; simp), hzero t (by simp), Nat.add_zero, if_pos hwB]
    rw [hstep]
    exact ih st (fun u hu => hzero u (List.mem_cons_of_mem t hu)) hwB hdone

/-- On a step whose histogram bin is empty, with non-empty background
and foreground and no strict variance improvement, the state is kept. -/
theorem otsu_fold_const (hist : ℕ → ℕ) (total sumW : ℕ) :
    ∀ (l : List ℕ) (st : OtsuState),
      st.done = false → st.wB ≠ 0 → total - st.wB ≠ 0 →
      (∀ t ∈ l, hist t = 0) →
      ¬(mkRat st.wB 1 * mkRat (((total - st.wB : ℕ) : ℤ)) 1 *
          ((mkRat st.sumB st.wB - mkRat ((sumW : ℤ) - (st.sumB : ℤ)) (total - st.wB)) *
            (mkRat st.sumB st.wB - mkRat ((sumW : ℤ) - (st.sumB : ℤ)) (total - st.wB)))
         > st.maxVariance) →
      l.foldl (otsuStep hist total sumW) st = st := by
  intro l
  induction l with
  | nil => intro st _ _ _ _ _; rfl
  | cons t l ih =>
    intro st hdone hwB hwF hzero hvar
    rw [List.foldl_cons]
    have hstep : otsuStep hist total sumW st t = st := by
      unfold otsuStep
      rw [if_neg (by rw [hdone]; simp), hzero t (by simp), Nat.add_zero, if_neg hwB,
        if_neg hwF, Nat.mul_zero, Nat.add_zero, if_neg hvar]
      cases st
      simp_all
    rw [hstep]
    exact ih st hdone hwB hwF (fun u hu => hzero u (List.mem_cons_of_mem t hu)) hvar

/-- The first populated bin: background becomes that bin, and its
positive between-class variance beats the initial 0, recording `t = a`
as threshold. -/
theorem otsuStep_first (hist : ℕ → ℕ) (total sumW a : ℕ)
    (hha : hist a ≠ 0) (hwF : total - hist a ≠ 0)
    (hpos : mkRat (hist a) 1 * mkRat ((total - hist a : ℕ) : ℤ) 1 *
        ((mkRat ((a * hist a : ℕ) : ℤ) (hist a) -
            mkRat ((sumW : ℤ) - ((a * hist a : ℕ) : ℤ)) (total - hist a)) *
         (mkRat ((a * hist a : ℕ) : ℤ) (hist a) -
            mkRat ((sumW : ℤ) - ((a * hist a : ℕ) : ℤ)) (total - hist a))) > 0) :
    otsuStep hist total sumW ⟨0, 0, 0, 128, false⟩ a =
      ⟨hist a, a * hist a,
        mkRat (hist a) 1 * mkRat ((total - hist a : ℕ) : ℤ) 1 *
        ((mkRat ((a * hist a : ℕ) : ℤ) (hist a) -
            mkRat ((sumW : ℤ) - ((a * hist a : ℕ) : ℤ)) (total - hist a)) *
         (mkRat ((a * hist a : ℕ) : ℤ) (hist a) -
            mkRat ((sumW : ℤ) - ((a * hist a : ℕ) : ℤ)) (total - hist a))),
        a, false⟩ := by
  unfold otsuStep
  simp only [Nat.zero_add]
  rw [if_neg (by simp), if_neg hha, if_neg hwF, if_pos hpos]

/-- The bin that completes the histogram: the foreground empties and the
scan breaks, keeping the recorded threshold. -/
theorem otsuStep_break (hist : ℕ → ℕ) (total sumW t : ℕ) (st : OtsuState)
    (hdone : st.done = false) (hwB : st.wB + hist t ≠ 0)
    (hfull : st.wB + hist t = total) :
    otsuStep hist total sumW st t = { st with wB := st.wB + hist t, done := true } := by
  unfold otsuStep
  rw [if_neg (by rw [hdone]; simp), if_neg hwB,
    if_pos (show total - (st.wB + hist t) = 0 by omega)]

/-- **C3 (amended).** On a pixel array taking exactly two intensities
`a < b` (both present), `otsuThreshold` returns exactly the lower mode
`a` — at least the lower mode and strictly below the upper mode, but
*not* strictly greater than the lower mode as the claim states. -/
theorem otsuThreshold_two_point (pixels : List ℕ) (a b : ℕ)
    (hab : a < b) (hb255 : b ≤ 255)
    (ham : a ∈ pixels) (hbm : b ∈ pixels)
    (hsupp : ∀ p ∈ pixels, p = a ∨ p = b) :
    otsuThreshold pixels = a := by
  have hne : a ≠ b := Nat.ne_of_lt hab
  have hna : pixels.count a ≠ 0 := by
    have := List.count_pos_iff.mpr ham
    omega
  have hnb : pixels.count b ≠ 0 := by
    have := List.count_pos_iff.mpr hbm
    omega
  have hhist0 : ∀ t, t ≠ a → t ≠ b → pixels.count t = 0 := by
    intro t hta htb
    rw [List.count_eq_zero]
    intro hmem
    rcases hsupp t hmem with rfl | rfl
    · exact hta rfl
    · exact htb rfl
  have htotal : pixels.length = pixels.count a + pixels.count b :=
    length_eq_count_add_count hne pixels hsupp
  have hsumW : (List.range 256).foldl (fun acc t => acc + t * pixels.count t) 0 =
      a * pixels.count a + b * pixels.count b := by
    rw [foldl_weighted_eq_sum (fun t => t * pixels.count t) 256]
    rw [← Finset.sum_subset
      (show ({a, b} : Finset ℕ) ⊆ Finset.range 256 by
        intro x hx
        rcases Finset.mem_insert.mp hx with rfl | hx
        · exact Finset.mem_range.mpr (by omega)
        · rcases Finset.mem_singleton.mp hx with rfl
          exact Finset.mem_range.mpr (by omega))
      (by
        intro x _ hx
        have hxa : x ≠ a := fun h => hx (by rw [h]; exact Finset.mem_insert_self a {b})
        have hxb : x ≠ b := fun h => hx (by
          rw [h]
          exact Finset.mem_insert_of_mem (Finset.mem_singleton_self b))
        rw [hhist0 x hxa hxb, Nat.mul_zero])]
    rw [Finset.sum_pair hne]
  -- decompose the 256-step scan around the two populated bins
  have e1 : List.range' 0 a ++ List.range' a (256 - a) = List.range' 0 256 := by
    have h := List.range'_append 0 a (256 - a) 1
    rw [show 0 + 1 * a = a by omega, show (256 - a) + a = 256 by omega] at h
    exact h
  have e2 : List.range' a (256 - a) = a :: List.range' (a + 1) (255 - a) := by
    have h := List.range'_succ a (255 - a) 1
    rw [show (255 - a) + 1 = 256 - a by omega] at h
    exact h
  have e3 : List.range' (a + 1) (b - a - 1) ++ List.range' b (256 - b) =
      List.range' (a + 1) (255 - a) := by
    have h := List.range'_append (a + 1) (b - a - 1) (256 - b) 1
    rw [show a + 1 + 1 * (b - a - 1) = b by omega,
      show (256 - b) + (b - a - 1) = 255 - a by omega] at h
    exact h
  have e4 : List.range' b (256 - b) = b :: List.range' (b + 1) (255 - b) := by
    have h := List.range'_succ b (255 - b) 1
    rw [show (255 - b) + 1 = 256 - b by omega] at h
    exact h
  have hsplit : List.range 256 = List.range' 0 a ++
      (a :: (List.range' (a + 1) (b - a - 1) ++ (b :: List.range' (b + 1) (255 - b)))) := by
    rw [List.range_eq_range', ← e1, e2, ← e3, e4]
  -- the positive variance at the first populated bin
  have hca : ((pixels.count a : ℚ)) ≠ 0 := Nat.cast_ne_zero.mpr hna
  have hcb : ((pixels.count b : ℚ)) ≠ 0 := Nat.cast_ne_zero.mpr hnb
  have hwFv : pixels.count a + pixels.count b - pixels.count a = pixels.count b := by omega
  have hcast : ((a * pixels.count a + b * pixels.count b : ℕ) : ℤ) -
      ((a * pixels.count a : ℕ) : ℤ) = ((b * pixels.count b : ℕ) : ℤ) := by
    push_cast
    ring
  have hpos : mkRat (pixels.count a) 1 *
      mkRat ((pixels.count a + pixels.count b - pixels.count a : ℕ) : ℤ) 1 *
      ((mkRat ((a * pixels.count a : ℕ) : ℤ) (pixels.count a) -
          mkRat (((a * pixels.count a + b * pixels.count b : ℕ) : ℤ) -
            ((a * pixels.count a : ℕ) : ℤ))
            (pixels.count a + pixels.count b - pixels.count a)) *
       (mkRat ((a * pixels.count a : ℕ) : ℤ) (pixels.count a) -
          mkRat (((a * pixels.count a + b * pixels.count b : ℕ) : ℤ) -
            ((a * pixels.count a : ℕ) : ℤ))
            (pixels.count a + pixels.count b - pixels.count a))) > 0 := by
    rw [hwFv, hcast]
    simp only [Rat.mkRat_eq_div]
    push_cast
    rw [div_one, div_one, mul_div_assoc, div_self hca, mul_one,
      mul_div_assoc, div_self hcb, mul_one]
    have hdiff : (a : ℚ) - b ≠ 0 :=
      sub_ne_zero.mpr (fun h => hne (Nat.cast_injective h))
    have h1 : (0 : ℚ) < (pixels.count a : ℚ) :=
      lt_of_le_of_ne (Nat.cast_nonneg _) (Ne.symm hca)
    have h2 : (0 : ℚ) < (pixels.count b : ℚ) :=
      lt_of_le_of_ne (Nat.cast_nonneg _) (Ne.symm hcb)
    exact mul_pos (mul_pos h1 h2) (mul_self_pos.mpr hdiff)
  show ((List.range 256).foldl
    (otsuStep (fun t => pixels.count t) pixels.length
      ((List.range 256).foldl (fun acc t => acc + t * pixels.count t) 0))
    ⟨0, 0, 0, 128, false⟩).threshold = a
  rw [htotal, hsumW, hsplit, List.foldl_append]
  rw [otsu_fold_zero _ _ _ (List.range' 0 a) ⟨0, 0, 0, 128, false⟩
    (by
      intro t ht
      rcases List.mem_range'.mp ht with ⟨i, hi, rfl⟩
      exact hhist0 _ (by omega) (by omega))
    rfl rfl]
  rw [List.foldl_cons]
  rw [otsuStep_first (fun t => pixels.count t)
    (pixels.count a + pixels.count b) (a * pixels.count a + b * pixels.count b) a
    hna
    (by show pixels.count a + pixels.count b - pixels.count a ≠ 0; omega)
    hpos]
  rw [List.foldl_append]
  rw [otsu_fold_const _ _ _ (List.range' (a + 1) (b - a - 1)) _
    rfl hna
    (by show pixels.count a + pixels.count b - pixels.count a ≠ 0; omega)
    (by
      intro t ht
      rcases List.mem_range'.mp ht with ⟨i, hi, rfl⟩
      exact hhist0 _ (by omega) (by omega))
    (lt_irrefl _)]
  rw [List.foldl_cons]
  rw [otsuStep_break (fun t => pixels.count t)
    (pixels.count a + pixels.count b) (a * pixels.count a + b * pixels.count b) b _
    rfl
    (by show pixels.count a + pixels.count b ≠ 0; omega)
    rfl]
  rw [otsu_fold_done _ _ _ (List.range' (b + 1) (255 - b)) _ rfl]

/-- Witness for `otsuThreshold_two_point` at a concrete input. -/
theorem otsuThreshold_two_point_witness :
    ((10 : ℕ) < 240 ∧ (240 : ℕ) ≤ 255 ∧
      10 ∈ [10, 10, 240, 240, 240] ∧ 240 ∈ [10, 10, 240, 240, 240] ∧
      ∀ p ∈ [10, 10, 240, 240, 240], p = 10 ∨ p = 240) ∧
    otsuThreshold [10, 10, 240, 240, 240] = 10 :=
  ⟨⟨by decide, by decide, by decide, by decide, by decide⟩,
    otsuThreshold_two_point [10, 10, 240, 240, 240] 10 240
      (by decide) (by decide) (by decide) (by decide) (by decide)⟩

set_option maxRecDepth 40000 in
/-- **C3 (counterexample).** On the spec's own example of a clearly
bimodal array (40% of pixels at intensity 10, 60% at 240) the computed
threshold is exactly 10 — the lower mode — and therefore not strictly
between the two modes. -/
theorem otsu_bimodal_counterexample :
    otsuThreshold [10, 10, 240, 240, 240] = 10 ∧
    ¬(10 < otsuThreshold [10, 10, 240, 240, 240] ∧
      otsuThreshold [10, 10, 240, 240, 240] < 240) := by
  have h : otsuThreshold [10, 10, 240, 240, 240] = 10 :=
    of_decide_eq_true (by with_unfolding_all rfl)
  refine ⟨h, ?_⟩
  rw [h]
  omega

/-! ### Correctness of the Gauss–Jordan elimination (claim C2) -/

theorem pivotRow_ge (m : GMat) (col : Fin 8) : col ≤ pivotRow m col := by
  unfold pivotRow
  have hgen : ∀ (l : List (Fin 8)) (piv : Fin 8), col ≤ piv → (∀ r ∈ l, col ≤ r) →
      col ≤ l.foldl
        (fun piv r => if |m r col.castSucc| > |m piv col.castSucc| then r else piv) piv := by
    intro l
    induction l with
    | nil => intro piv h _; exact h
    | cons a l ih =>
      intro piv hpiv hall
      rw [List.foldl_cons]
      by_cases hc : |m a col.castSucc| > |m piv col.castSucc|
      · rw [if_pos hc]
        exact ih a (hall a (by simp)) (fun r hr => hall r (List.mem_cons_of_mem a hr))
      · rw [if_neg hc]
        exact ih piv hpiv (fun r hr => hall r (List.mem_cons_of_mem a hr))
  refine hgen _ col (le_refl col) ?_
  intro r hr
  rcases List.mem_filter.mp hr with ⟨-, hlt⟩
  exact le_of_lt (of_decide_eq_true hlt)

theorem swapIdx_invol (col piv r : Fin 8) : swapIdx col piv (swapIdx col piv r) = r := by
  unfold swapIdx
  by_cases h1 : r = col
  · subst h1
    by_cases h2 : piv = r
    · simp [h2]
    · simp [h2, if_neg h2]
  · by_cases h2 : r = piv
    · subst h2
      simp [h1]
    · simp [h1, h2]

theorem swapRows_apply (m : GMat) (col piv r : Fin 8) (j : Fin 9) :
    swapRows m col piv r j = m (swapIdx col piv r) j := by
  unfold swapRows swapIdx
  split_ifs <;> rfl

theorem Sol_swapRows (m : GMat) (col piv : Fin 8) (x : Fin 8 → ℚ) :
    Sol (swapRows m col piv) x ↔ Sol m x := by
  constructor
  · intro h r
    have h2 := h (swapIdx col piv r)
    simp only [swapRows_apply, swapIdx_invol] at h2
    exact h2
  · intro h r
    simp only [swapRows_apply]
    exact h (swapIdx col piv r)

theorem GaussInv_swapRows {m : GMat} {col piv : Fin 8} {d : ℕ}
    (hinv : GaussInv d m) (hc : d ≤ col.val) (hp : d ≤ piv.val) :
    GaussInv d (swapRows m col piv) := by
  intro r j hj
  rw [swapRows_apply, hinv _ _ hj]
  by_cases e1 : r = col
  · subst e1
    have h1 : swapIdx r piv r = piv := by unfold swapIdx; rw [if_pos rfl]
    rw [h1, if_neg (show ¬(piv.val = j.val) by omega),
      if_neg (show ¬(r.val = j.val) by omega)]
  · by_cases e2 : r = piv
    · subst e2
      have h1 : swapIdx col r r = col := by unfold swapIdx; rw [if_neg e1, if_pos rfl]
      rw [h1, if_neg (show ¬(col.val = j.val) by omega),
        if_neg (show ¬(r.val = j.val) by omega)]
    · have h1 : swapIdx col piv r = r := by unfold swapIdx; rw [if_neg e1, if_neg e2]
      rw [h1]

theorem scaleRow_apply_ne {m : GMat} {col r : Fin 8} {pv : ℚ} (h : r ≠ col) (j : Fin 9) :
    scaleRow m col pv r j = m r j := by
  unfold scaleRow
  rw [if_neg (fun hc => h hc.1)]

theorem scaleRow_apply_col {m : GMat} {col : Fin 8} {pv : ℚ}
    (hinv : GaussInv col.val m) (j : Fin 9) :
    scaleRow m col pv col j = m col j / pv := by
  unfold scaleRow
  by_cases hj : col.val ≤ j.val
  · rw [if_pos ⟨rfl, hj⟩]
  · rw [if_neg (fun hc => hj hc.2)]
    have h0 : m col j = 0 := by
      rw [hinv col j (by omega), if_neg (by omega)]
    rw [h0, zero_div]

theorem GaussInv_scaleRow {m : GMat} {col : Fin 8} {pv : ℚ} {d : ℕ}
    (hinv : GaussInv d m) (hd : d ≤ col.val) :
    GaussInv d (scaleRow m col pv) := by
  intro r j hj
  unfold scaleRow
  rw [if_neg (fun hc => by omega)]
  exact hinv r j hj

theorem Sol_scaleRow {m : GMat} {col : Fin 8} {pv : ℚ}
    (hinv : GaussInv col.val m) (hpv : pv ≠ 0) (x : Fin 8 → ℚ) :
    Sol (scaleRow m col pv) x ↔ Sol m x := by
  have hdiv : ∀ c : ℚ, (∑ j : Fin 8, m col j.castSucc / pv * x j) = c / pv ↔
      (∑ j : Fin 8, m col j.castSucc * x j) = c := by
    intro c
    have he : ∀ j : Fin 8, m col j.castSucc / pv * x j =
        m col j.castSucc * x j / pv := fun j => div_mul_eq_mul_div _ _ _
    rw [Finset.sum_congr rfl (fun j _ => he j), ← Finset.sum_div]
    constructor
    · intro h
      have := congrArg (fun q : ℚ => q * pv) h
      simpa [div_mul_cancel₀ _ hpv] using this
    · intro h
      rw [h]
  constructor
  · intro h r
    by_cases hr : r = col
    · subst hr
      have h2 := h r
      simp only [scaleRow_apply_col hinv] at h2
      exact (hdiv _).mp h2
    · have h2 := h r
      simp only [scaleRow_apply_ne hr] at h2
      exact h2
  · intro h r
    by_cases hr : r = col
    · subst hr
      simp only [scaleRow_apply_col hinv]
      exact (hdiv _).mpr (h r)
    · simp only [scaleRow_apply_ne hr]
      exact h r

theorem elimCol_apply_col (m : GMat) (col : Fin 8) (j : Fin 9) :
    elimCol m col col j = m col j := by
  unfold elimCol
  rw [if_neg (fun hc => hc.1 rfl)]

theorem elimCol_apply_ne {m : GMat} {col r : Fin 8}
    (hinv : GaussInv col.val m) (hr : r ≠ col) (j : Fin 9) :
    elimCol m col r j = m r j - m r col.castSucc * m col j := by
  unfold elimCol
  by_cases hj : col.val ≤ j.val
  · rw [if_pos ⟨hr, hj⟩]
  · rw [if_neg (fun hc => hj hc.2)]
    have h0 : m col j = 0 := by
      rw [hinv col j (by omega), if_neg (by omega)]
    rw [h0, mul_zero, sub_zero]

theorem Sol_elimCol {m : GMat} {col : Fin 8}
    (hinv : GaussInv col.val m) (x : Fin 8 → ℚ) :
    Sol (elimCol m col) x ↔ Sol m x := by
  have hexp : ∀ r : Fin 8, r ≠ col →
      (∑ j : Fin 8, elimCol m col r j.castSucc * x j) =
        (∑ j : Fin 8, m r j.castSucc * x j) -
          m r col.castSucc * (∑ j : Fin 8, m col j.castSucc * x j) := by
    intro r hr
    rw [Finset.mul_sum, ← Finset.sum_sub_distrib]
    refine Finset.sum_congr rfl ?_
    intro j _
    rw [elimCol_apply_ne hinv hr]
    ring
  constructor
  · intro h r
    by_cases hr : r = col
    · subst hr
      have h2 := h r
      simp only [elimCol_apply_col] at h2
      exact h2
    · have hcol : (∑ j : Fin 8, m col j.castSucc * x j) = m col 8 := by
        have h2 := h col
        simp only [elimCol_apply_col] at h2
        exact h2
      have h2 := h r
      rw [hexp r hr, hcol, elimCol_apply_ne hinv hr] at h2
      linarith
  · intro h r
    by_cases hr : r = col
    · subst hr
      simp only [elimCol_apply_col]
      exact h r
    · rw [hexp r hr, h col, elimCol_apply_ne hinv hr]
      have h2 := h r
      linarith

theorem gaussStep_correct {m m' : GMat} {col : Fin 8}
    (hinv : GaussInv col.val m) (h : gaussStep m col = some m') :
    (∀ x, Sol m' x ↔ Sol m x) ∧ GaussInv (col.val + 1) m' := by
  unfold gaussStep at h
  by_cases hpiv : |m (pivotRow m col) col.castSucc| < mkRat 1 1000000000
  · rw [if_pos hpiv] at h
    exact absurd h (by simp)
  · rw [if_neg hpiv] at h
    have hm' : elimCol (scaleRow (swapRows m col (pivotRow m col)) col
        (swapRows m col (pivotRow m col) col col.castSucc)) col = m' :=
      Option.some_inj.mp h
    have hpge : col.val ≤ (pivotRow m col).val := pivotRow_ge m col
    have hswap_col : ∀ j, swapRows m col (pivotRow m col) col j = m (pivotRow m col) j := by
      intro j
      unfold swapRows
      rw [if_pos rfl]
    have hpv : swapRows m col (pivotRow m col) col col.castSucc ≠ 0 := by
      rw [hswap_col]
      intro h0
      rw [h0, abs_zero] at hpiv
      exact hpiv (by norm_num [Rat.mkRat_eq_div])
    have hinv1 : GaussInv col.val (swapRows m col (pivotRow m col)) :=
      GaussInv_swapRows hinv (le_refl _) hpge
    have hinv2 : GaussInv col.val (scaleRow (swapRows m col (pivotRow m col)) col
        (swapRows m col (pivotRow m col) col col.castSucc)) :=
      GaussInv_scaleRow hinv1 (le_refl _)
    constructor
    · intro x
      rw [← hm']
      rw [Sol_elimCol hinv2, Sol_scaleRow hinv1 hpv, Sol_swapRows]
    · intro r j hj
      rw [← hm']
      rcases Nat.lt_or_ge j.val col.val with hlt | hge
      · have e1 : elimCol (scaleRow (swapRows m col (pivotRow m col)) col
            (swapRows m col (pivotRow m col) col col.castSucc)) col r j =
            swapRows m col (pivotRow m col) r j := by
          unfold elimCol scaleRow
          rw [if_neg (fun hc => by omega), if_neg (fun hc => by omega)]
        rw [e1, hinv1 r j (by omega)]
      · have hjc : j = col.castSucc := by
          apply Fin.ext
          simp only [Fin.coe_castSucc]
          omega
      -- here j has value exactly col
        subst hjc
        have hscale_cc : scaleRow (swapRows m col (pivotRow m col)) col
            (swapRows m col (pivotRow m col) col col.castSucc) col col.castSucc = 1 := by
          rw [scaleRow_apply_col hinv1, div_self hpv]
        have hcsv : ((col.castSucc : Fin 9) : ℕ) = (col : ℕ) := rfl
        by_cases hr : r = col
        · subst hr
          rw [elimCol_apply_col, hscale_cc, hcsv, if_pos rfl]
        · rw [elimCol_apply_ne hinv2 hr, hscale_cc, mul_one, sub_self, hcsv,
            if_neg (fun hv => hr (Fin.ext hv))]

theorem gaussAux_correct :
    ∀ (k d : ℕ) (m : GMat), k + d = 8 → GaussInv d m →
      ∀ m', gaussAux k d m = some m' →
        ((∀ x, Sol m' x ↔ Sol m x) ∧ GaussInv 8 m') := by
  intro k
  induction k with
  | zero =>
    intro d m hkd hinv m' h
    have hd : d = 8 := by omega
    have hm : m = m' := Option.some_inj.mp h
    subst hm
    exact ⟨fun x => Iff.rfl, by rw [← hd]; exact hinv⟩
  | succ k ih =>
    intro d m hkd hinv m' h
    have hd : d < 8 := by omega
    rw [gaussAux, dif_pos hd] at h
    cases hstep : gaussStep m ⟨d, hd⟩ with
    | none => rw [hstep] at h; exact absurd h (by simp)
    | some m1 =>
      rw [hstep] at h
      have h2 : gaussAux k (d + 1) m1 = some m' := h
      rcases gaussStep_correct hinv hstep with ⟨hsol1, hinv1⟩
      rcases ih (d + 1) m1 (by omega) hinv1 m' h2 with ⟨hsol2, hinv2⟩
      exact ⟨fun x => (hsol2 x).trans (hsol1 x), hinv2⟩

/-- Core correctness of `solveLinearSystem8`: a returned vector exactly
satisfies the input system. -/
theorem solveLinearSystem8_correct {M : Fin 8 → Fin 8 → ℚ} {v x : Fin 8 → ℚ}
    (h : solveLinearSystem8 M v = some x) :
    ∀ r, ∑ j : Fin 8, M r j * x j = v r := by
  have h1 : (gaussAux 8 0 (fun r j => if hj : j.val < 8 then M r ⟨j.val, hj⟩ else v r)).map
      (fun m => fun r => m r 8) = some x := h
  cases hg : gaussAux 8 0 (fun r j => if hj : j.val < 8 then M r ⟨j.val, hj⟩ else v r) with
  | none => rw [hg] at h1; exact absurd h1 (by simp)
  | some m' =>
    rw [hg] at h1
    have h2 : some (fun r => m' r 8) = some x := h1
    have hx : x = fun r => m' r 8 := (Option.some_inj.mp h2).symm
    rcases gaussAux_correct 8 0 _ (by omega) (fun r j hj => absurd hj (by omega)) m' hg with
      ⟨hsol, hinv8⟩
    have hxm : Sol m' x := by
      intro r
      have hsum : ∑ j : Fin 8, m' r j.castSucc * x j = x r := by
        rw [Finset.sum_eq_single r]
        · have hrv : ((r.castSucc : Fin 9) : ℕ) = (r : ℕ) := rfl
          rw [hinv8 r r.castSucc (show ((r.castSucc : Fin 9) : ℕ) < 8 from r.isLt),
            hrv, if_pos rfl, one_mul]
        · intro j _ hj
          have hjv : ((j.castSucc : Fin 9) : ℕ) = (j : ℕ) := rfl
          rw [hinv8 r j.castSucc (show ((j.castSucc : Fin 9) : ℕ) < 8 from j.isLt),
            hjv, if_neg (fun hv => hj (Fin.ext hv.symm)), zero_mul]
        · intro hmem
          exact absurd (Finset.mem_univ r) hmem
      rw [hsum, hx]
    have haug := (hsol x).mp hxm
    intro r
    have h2 := haug r
    have e1 : ∀ j : Fin 8,
        (fun r (j : Fin 9) => if hj : j.val < 8 then M r ⟨j.val, hj⟩ else v r) r j.castSucc =
          M r j := by
      intro j
      simp only [Fin.coe_castSucc]
      rw [dif_pos j.isLt]
    have e2 : (fun r (j : Fin 9) => if hj : j.val < 8 then M r ⟨j.val, hj⟩ else v r) r 8 =
        v r := by
      have hv8 : ((8 : Fin 9) : ℕ) = 8 := rfl
      show (if hj : ((8 : Fin 9) : ℕ) < 8 then M r ⟨((8 : Fin 9) : ℕ), hj⟩ else v r) = v r
      rw [dif_neg (by rw [hv8]; omega)]
    rw [Finset.sum_congr rfl (fun j _ => by rw [e1 j]) , e2] at h2
    exact h2

/-! ### The DLT equations satisfied by a returned homography -/

theorem homography_equations {src dst : Fin 4 → Pt} {h : Fin 9 → ℚ}
    (hh : homographyFrom4Points src dst = some h) :
    h 8 = 1 ∧ ∀ i : Fin 4,
      homX h (src i) = (dst i).x * homW h (src i) ∧
      homY h (src i) = (dst i).y * homW h (src i) := by
  unfold homographyFrom4Points at hh
  cases hs : solveLinearSystem8 (dltMatrix src dst) (dltVector dst) with
  | none => rw [hs] at hh; exact absurd hh (by simp)
  | some s =>
    rw [hs] at hh
    have h2 : some (![s 0, s 1, s 2, s 3, s 4, s 5, s 6, s 7, (1 : ℚ)]) = some h := hh
    obtain heq := Option.some_inj.mp h2
    subst heq
    have hc := solveLinearSystem8_correct hs
    have e0 : (src 0).x * s 0 + (src 0).y * s 1 + 1 * s 2 + 0 * s 3 + 0 * s 4 + 0 * s 5 +
        -(dst 0).x * (src 0).x * s 6 + -(dst 0).x * (src 0).y * s 7 = (dst 0).x := by
      have e := hc 0; rw [Fin.sum_univ_eight] at e; exact e
    have e1 : 0 * s 0 + 0 * s 1 + 0 * s 2 + (src 0).x * s 3 + (src 0).y * s 4 + 1 * s 5 +
        -(dst 0).y * (src 0).x * s 6 + -(dst 0).y * (src 0).y * s 7 = (dst 0).y := by
      have e := hc 1; rw [Fin.sum_univ_eight] at e; exact e
    have e2 : (src 1).x * s 0 + (src 1).y * s 1 + 1 * s 2 + 0 * s 3 + 0 * s 4 + 0 * s 5 +
        -(dst 1).x * (src 1).x * s 6 + -(dst 1).x * (src 1).y * s 7 = (dst 1).x := by
      have e := hc 2; rw [Fin.sum_univ_eight] at e; exact e
    have e3 : 0 * s 0 + 0 * s 1 + 0 * s 2 + (src 1).x * s 3 + (src 1).y * s 4 + 1 * s 5 +
        -(dst 1).y * (src 1).x * s 6 + -(dst 1).y * (src 1).y * s 7 = (dst 1).y := by
      have e := hc 3; rw [Fin.sum_univ_eight] at e; exact e
    have e4 : (src 2).x * s 0 + (src 2).y * s 1 + 1 * s 2 + 0 * s 3 + 0 * s 4 + 0 * s 5 +
        -(dst 2).x * (src 2).x * s 6 + -(dst 2).x * (src 2).y * s 7 = (dst 2).x := by
      have e := hc 4; rw [Fin.sum_univ_eight] at e; exact e
    have e5 : 0 * s 0 + 0 * s 1 + 0 * s 2 + (src 2).x * s 3 + (src 2).y * s 4 + 1 * s 5 +
        -(dst 2).y * (src 2).x * s 6 + -(dst 2).y * (src 2).y * s 7 = (dst 2).y := by
      have e := hc 5; rw [Fin.sum_univ_eight] at e; exact e
    have e6 : (src 3).x * s 0 + (src 3).y * s 1 + 1 * s 2 + 0 * s 3 + 0 * s 4 + 0 * s 5 +
        -(dst 3).x * (src 3).x * s 6 + -(dst 3).x * (src 3).y * s 7 = (dst 3).x := by
      have e := hc 6; rw [Fin.sum_univ_eight] at e; exact e
    have e7 : 0 * s 0 + 0 * s 1 + 0 * s 2 + (src 3).x * s 3 + (src 3).y * s 4 + 1 * s 5 +
        -(dst 3).y * (src 3).x * s 6 + -(dst 3).y * (src 3).y * s 7 = (dst 3).y := by
      have e := hc 7; rw [Fin.sum_univ_eight] at e; exact e
    refine ⟨rfl, ?_⟩
    intro i
    fin_cases i
    · exact ⟨by show s 0 * (src 0).x + s 1 * (src 0).y + s 2 =
          (dst 0).x * (s 6 * (src 0).x + s 7 * (src 0).y + 1); linear_combination e0,
        by show s 3 * (src 0).x + s 4 * (src 0).y + s 5 =
          (dst 0).y * (s 6 * (src 0).x + s 7 * (src 0).y + 1); linear_combination e1⟩
    · exact ⟨by show s 0 * (src 1).x + s 1 * (src 1).y + s 2 =
          (dst 1).x * (s 6 * (src 1).x + s 7 * (src 1).y + 1); linear_combination e2,
        by show s 3 * (src 1).x + s 4 * (src 1).y + s 5 =
          (dst 1).y * (s 6 * (src 1).x + s 7 * (src 1).y + 1); linear_combination e3⟩
    · exact ⟨by show s 0 * (src 2).x + s 1 * (src 2).y + s 2 =
          (dst 2).x * (s 6 * (src 2).x + s 7 * (src 2).y + 1); linear_combination e4,
        by show s 3 * (src 2).x + s 4 * (src 2).y + s 5 =
          (dst 2).y * (s 6 * (src 2).x + s 7 * (src 2).y + 1); linear_combination e5⟩
    · exact ⟨by show s 0 * (src 3).x + s 1 * (src 3).y + s 2 =
          (dst 3).x * (s 6 * (src 3).x + s 7 * (src 3).y + 1); linear_combination e6,
        by show s 3 * (src 3).x + s 4 * (src 3).y + s 5 =
          (dst 3).y * (s 6 * (src 3).x + s 7 * (src 3).y + 1); linear_combination e7⟩

/-! ### Permutation and degeneracy facts about collinearity -/

theorem collinear3_swap12 {p q r : Pt} : collinear3 q p r ↔ collinear3 p q r := by
  unfold collinear3
  rw [show det3v q.x q.y 1 p.x p.y 1 r.x r.y 1 =
      -det3v p.x p.y 1 q.x q.y 1 r.x r.y 1 by unfold det3v; ring]
  exact neg_eq_zero

theorem collinear3_swap23 {p q r : Pt} : collinear3 p r q ↔ collinear3 p q r := by
  unfold collinear3
  rw [show det3v p.x p.y 1 r.x r.y 1 q.x q.y 1 =
      -det3v p.x p.y 1 q.x q.y 1 r.x r.y 1 by unfold det3v; ring]
  exact neg_eq_zero

theorem collinear3_rotate {p q r : Pt} : collinear3 r p q ↔ collinear3 p q r := by
  unfold collinear3
  rw [show det3v r.x r.y 1 p.x p.y 1 q.x q.y 1 =
      det3v p.x p.y 1 q.x q.y 1 r.x r.y 1 by unfold det3v; ring]

theorem collinear3_of_eq12 {p q r : Pt} (h : p = q) : collinear3 p q r := by
  subst h; unfold collinear3 det3v; ring

theorem collinear3_of_eq13 {p q r : Pt} (h : p = r) : collinear3 p q r := by
  subst h; unfold collinear3 det3v; ring

theorem collinear3_of_eq23 {p q r : Pt} (h : q = r) : collinear3 p q r := by
  subst h; unfold collinear3 det3v; ring

/-! ### Kernel analysis: why the projective denominators cannot vanish -/

theorem hom_kernel_three {h : Fin 9 → ℚ} {a b c : Pt}
    (ha : homW h a = 0) (hb : homW h b = 0) (hc : homW h c = 0)
    (hdet : ¬ collinear3 a b c) : h 8 = 0 := by
  unfold homW at ha hb hc
  unfold collinear3 at hdet
  by_contra h8
  apply hdet
  have key : h 8 * det3v a.x a.y 1 b.x b.y 1 c.x c.y 1 =
      (b.x * c.y - c.x * b.y) * (h 6 * a.x + h 7 * a.y + h 8) -
        (a.x * c.y - c.x * a.y) * (h 6 * b.x + h 7 * b.y + h 8) +
        (a.x * b.y - b.x * a.y) * (h 6 * c.x + h 7 * c.y + h 8) := by
    unfold det3v; ring
  rw [ha, hb, hc] at key
  simp only [mul_zero, sub_zero, add_zero, zero_sub, neg_zero, zero_add] at key
  exact (mul_eq_zero.mp key).resolve_left h8

theorem hom_kernel_two {h : Fin 9 → ℚ} {a b c d qc qd : Pt} {g e : ℚ}
    (haX : homX h a = 0) (haY : homY h a = 0) (haW : homW h a = 0)
    (hbX : homX h b = 0) (hbY : homY h b = 0) (hbW : homW h b = 0)
    (hcX : homX h c = qc.x * g) (hcY : homY h c = qc.y * g) (hcW : homW h c = g)
    (hdX : homX h d = qd.x * e) (hdY : homY h d = qd.y * e) (hdW : homW h d = e)
    (hg : g ≠ 0) (habd : ¬ collinear3 a b d) : qc = qd := by
  simp only [homX, homY, homW] at haX haY haW hbX hbY hbW hcX hcY hcW hdX hdY hdW
  unfold collinear3 at habd
  have iw : det3v a.x a.y 1 b.x b.y 1 d.x d.y 1 * g =
      det3v a.x a.y 1 b.x b.y 1 c.x c.y 1 * e := by
    unfold det3v
    linear_combination
      (-(a.x * (b.y - d.y) - a.y * (b.x - d.x) + (b.x * d.y - b.y * d.x))) * hcW +
      (a.x * (b.y - c.y) - a.y * (b.x - c.x) + (b.x * c.y - b.y * c.x)) * hdW +
      (c.x * (b.y - d.y) - c.y * (b.x - d.x) + (b.x * d.y - b.y * d.x)) * haW +
      (a.x * (c.y - d.y) - a.y * (c.x - d.x) + (c.x * d.y - c.y * d.x)) * hbW
  have ix : det3v a.x a.y 1 b.x b.y 1 d.x d.y 1 * (qc.x * g) =
      det3v a.x a.y 1 b.x b.y 1 c.x c.y 1 * (qd.x * e) := by
    unfold det3v
    linear_combination
      (-(a.x * (b.y - d.y) - a.y * (b.x - d.x) + (b.x * d.y - b.y * d.x))) * hcX +
      (a.x * (b.y - c.y) - a.y * (b.x - c.x) + (b.x * c.y - b.y * c.x)) * hdX +
      (c.x * (b.y - d.y) - c.y * (b.x - d.x) + (b.x * d.y - b.y * d.x)) * haX +
      (a.x * (c.y - d.y) - a.y * (c.x - d.x) + (c.x * d.y - c.y * d.x)) * hbX
  have iy : det3v a.x a.y 1 b.x b.y 1 d.x d.y 1 * (qc.y * g) =
      det3v a.x a.y 1 b.x b.y 1 c.x c.y 1 * (qd.y * e) := by
    unfold det3v
    linear_combination
      (-(a.x * (b.y - d.y) - a.y * (b.x - d.x) + (b.x * d.y - b.y * d.x))) * hcY +
      (a.x * (b.y - c.y) - a.y * (b.x - c.x) + (b.x * c.y - b.y * c.x)) * hdY +
      (c.x * (b.y - d.y) - c.y * (b.x - d.x) + (b.x * d.y - b.y * d.x)) * haY +
      (a.x * (c.y - d.y) - a.y * (c.x - d.x) + (c.x * d.y - c.y * d.x)) * hbY
  have hKg : det3v a.x a.y 1 b.x b.y 1 d.x d.y 1 * g ≠ 0 := mul_ne_zero habd hg
  have hx : qc.x = qd.x := by
    have h1 : (det3v a.x a.y 1 b.x b.y 1 d.x d.y 1 * g) * qc.x =
        (det3v a.x a.y 1 b.x b.y 1 d.x d.y 1 * g) * qd.x := by
      linear_combination ix - qd.x * iw
    exact mul_left_cancel₀ hKg h1
  have hy : qc.y = qd.y := by
    have h1 : (det3v a.x a.y 1 b.x b.y 1 d.x d.y 1 * g) * qc.y =
        (det3v a.x a.y 1 b.x b.y 1 d.x d.y 1 * g) * qd.y := by
      linear_combination iy - qd.y * iw
    exact mul_left_cancel₀ hKg h1
  cases qc with
  | mk cx cy =>
    cases qd with
    | mk dx dy =>
      dsimp at hx hy
      rw [hx, hy]

theorem hom_kernel_one {h : Fin 9 → ℚ} {a b c d qb qc qd : Pt} {f g e : ℚ}
    (haX : homX h a = 0) (haY : homY h a = 0) (haW : homW h a = 0)
    (hbX : homX h b = qb.x * f) (hbY : homY h b = qb.y * f) (hbW : homW h b = f)
    (hcX : homX h c = qc.x * g) (hcY : homY h c = qc.y * g) (hcW : homW h c = g)
    (hdX : homX h d = qd.x * e) (hdY : homY h d = qd.y * e) (hdW : homW h d = e)
    (hf : f ≠ 0) (hg : g ≠ 0) (he : e ≠ 0) : collinear3 qb qc qd := by
  have hdetH : det3v (h 0) (h 1) (h 2) (h 3) (h 4) (h 5) (h 6) (h 7) (h 8) = 0 := by
    simp only [homX, homY, homW] at haX haY haW
    unfold det3v
    linear_combination (h 3 * h 7 - h 4 * h 6) * haX + (h 1 * h 6 - h 0 * h 7) * haY +
      (h 0 * h 4 - h 1 * h 3) * haW
  have hprod : det3v (qb.x * f) (qb.y * f) f (qc.x * g) (qc.y * g) g
      (qd.x * e) (qd.y * e) e =
      det3v (h 0) (h 1) (h 2) (h 3) (h 4) (h 5) (h 6) (h 7) (h 8) *
        det3v b.x b.y 1 c.x c.y 1 d.x d.y 1 := by
    rw [← hbX, ← hbY, ← hbW, ← hcX, ← hcY, ← hcW, ← hdX, ← hdY, ← hdW]
    unfold det3v homX homY homW
    ring
  rw [hdetH, zero_mul] at hprod
  have hscale : det3v (qb.x * f) (qb.y * f) f (qc.x * g) (qc.y * g) g
      (qd.x * e) (qd.y * e) e =
      f * g * e * det3v qb.x qb.y 1 qc.x qc.y 1 qd.x qd.y 1 := by
    unfold det3v; ring
  rw [hscale] at hprod
  have hne : f * g * e ≠ 0 := mul_ne_zero (mul_ne_zero hf hg) he
  unfold collinear3
  exact (mul_eq_zero.mp hprod).resolve_left hne

theorem hom_denom_core {h : Fin 9 → ℚ} {a b c d qb qc qd : Pt}
    (h8 : h 8 = 1)
    (haX : homX h a = 0) (haY : homY h a = 0) (haW : homW h a = 0)
    (hbX : homX h b = qb.x * homW h b) (hbY : homY h b = qb.y * homW h b)
    (hcX : homX h c = qc.x * homW h c) (hcY : homY h c = qc.y * homW h c)
    (hdX : homX h d = qd.x * homW h d) (hdY : homY h d = qd.y * homW h d)
    (habc : ¬ collinear3 a b c) (habd : ¬ collinear3 a b d)
    (hacd : ¬ collinear3 a c d)
    (hq : ¬ collinear3 qb qc qd) : False := by
  by_cases hf : homW h b = 0 <;> by_cases hg : homW h c = 0 <;>
    by_cases he : homW h d = 0
  · exact one_ne_zero (h8.symm.trans (hom_kernel_three haW hf hg habc))
  · exact one_ne_zero (h8.symm.trans (hom_kernel_three haW hf hg habc))
  · exact one_ne_zero (h8.symm.trans (hom_kernel_three haW hf he habd))
  · -- only b in the kernel together with a: images of c and d coincide
    rw [hf, mul_zero] at hbX hbY
    exact hq (collinear3_of_eq23
      (hom_kernel_two haX haY haW hbX hbY hf hcX hcY rfl hdX hdY rfl hg habd))
  · exact one_ne_zero (h8.symm.trans (hom_kernel_three haW hg he hacd))
  · -- only c in the kernel together with a: images of b and d coincide
    rw [hg, mul_zero] at hcX hcY
    exact hq (collinear3_of_eq13
      (hom_kernel_two haX haY haW hcX hcY hg hbX hbY rfl hdX hdY rfl hf hacd))
  · -- only d in the kernel together with a: images of b and c coincide
    rw [he, mul_zero] at hdX hdY
    exact hq (collinear3_of_eq12
      (hom_kernel_two haX haY haW hdX hdY he hbX hbY rfl hcX hcY rfl hf
        (fun hcol => hacd (collinear3_swap23.mp hcol))))
  · -- no other denominator vanishes: the three images are collinear
    exact hq (hom_kernel_one haX haY haW hbX hbY rfl hcX hcY rfl hdX hdY rfl hf hg he)

theorem hom_denominators {src dst : Fin 4 → Pt} {h : Fin 9 → ℚ}
    (h8 : h 8 = 1)
    (heq : ∀ i : Fin 4,
      homX h (src i) = (dst i).x * homW h (src i) ∧
      homY h (src i) = (dst i).y * homW h (src i))
    (hsrc : NoThreeCollinear src) (hdst : NoThreeCollinear dst) :
    ∀ i : Fin 4, homW h (src i) ≠ 0 := by
  obtain ⟨s012, s013, s023, s123⟩ := hsrc
  obtain ⟨q012, q013, q023, q123⟩ := hdst
  have zeroed : ∀ i : Fin 4, homW h (src i) = 0 →
      homX h (src i) = 0 ∧ homY h (src i) = 0 := by
    intro i hW
    refine ⟨?_, ?_⟩
    · have e := (heq i).1; rw [hW, mul_zero] at e; exact e
    · have e := (heq i).2; rw [hW, mul_zero] at e; exact e
  intro i hW
  fin_cases i
  · obtain ⟨haX, haY⟩ := zeroed 0 hW
    exact hom_denom_core h8 haX haY hW (heq 1).1 (heq 1).2 (heq 2).1 (heq 2).2
      (heq 3).1 (heq 3).2 s012 s013 s023 q123
  · obtain ⟨haX, haY⟩ := zeroed 1 hW
    exact hom_denom_core h8 haX haY hW (heq 0).1 (heq 0).2 (heq 2).1 (heq 2).2
      (heq 3).1 (heq 3).2
      (fun hcol => s012 (collinear3_swap12.mp hcol))
      (fun hcol => s013 (collinear3_swap12.mp hcol))
      s123 q023
  · obtain ⟨haX, haY⟩ := zeroed 2 hW
    exact hom_denom_core h8 haX haY hW (heq 0).1 (heq 0).2 (heq 1).1 (heq 1).2
      (heq 3).1 (heq 3).2
      (fun hcol => s012 (collinear3_rotate.mp hcol))
      (fun hcol => s023 (collinear3_swap23.mp (collinear3_rotate.mp hcol)))
      (fun hcol => s123 (collinear3_swap12.mp hcol))
      q013
  · obtain ⟨haX, haY⟩ := zeroed 3 hW
    exact hom_denom_core h8 haX haY hW (heq 0).1 (heq 0).2 (heq 1).1 (heq 1).2
      (heq 2).1 (heq 2).2
      (fun hcol => s013 (collinear3_rotate.mp hcol))
      (fun hcol => s023 (collinear3_rotate.mp hcol))
      (fun hcol => s123 (collinear3_rotate.mp hcol))
      q012

/-- **C2.** For any 4 point correspondences with no three source and no
three destination points collinear, if `homographyFrom4Points` succeeds
(returns non-null) then applying the returned 3×3 homography (nine
coefficients, last fixed to 1) to each source point has a nonvanishing
projective denominator and reproduces the destination point within
1e-6. -/
theorem homography_round_trip {src dst : Fin 4 → Pt} {h : Fin 9 → ℚ}
    (hsrc : NoThreeCollinear src) (hdst : NoThreeCollinear dst)
    (hh : homographyFrom4Points src dst = some h) :
    ∀ i : Fin 4, homW h (src i) ≠ 0 ∧
      |homX h (src i) / homW h (src i) - (dst i).x| ≤ mkRat 1 1000000 ∧
      |homY h (src i) / homW h (src i) - (dst i).y| ≤ mkRat 1 1000000 := by
  obtain ⟨h8, heq⟩ := homography_equations hh
  have hden := hom_denominators h8 heq hsrc hdst
  intro i
  refine ⟨hden i, ?_, ?_⟩
  · rw [(heq i).1, mul_div_assoc, div_self (hden i), mul_one, sub_self, abs_zero]
    exact of_decide_eq_true (by with_unfolding_all rfl)
  · rw [(heq i).2, mul_div_assoc, div_self (hden i), mul_one, sub_self, abs_zero]
    exact of_decide_eq_true (by with_unfolding_all rfl)

set_option maxRecDepth 40000 in
/-- Witness for C2: the unit square mapped to its doubling; the solver
returns the scaling homography and every corner is reproduced exactly. -/
theorem homography_round_trip_witness :
    NoThreeCollinear sqSrc ∧ NoThreeCollinear sqDst ∧
    homographyFrom4Points sqSrc sqDst = some hSq ∧
    ∀ i : Fin 4, homW hSq (sqSrc i) ≠ 0 ∧
      |homX hSq (sqSrc i) / homW hSq (sqSrc i) - (sqDst i).x| ≤ mkRat 1 1000000 ∧
      |homY hSq (sqSrc i) / homW hSq (sqSrc i) - (sqDst i).y| ≤ mkRat 1 1000000 := by
  have h1 : NoThreeCollinear sqSrc := by
    unfold NoThreeCollinear collinear3
    exact of_decide_eq_true (by with_unfolding_all rfl)
  have h2 : NoThreeCollinear sqDst := by
    unfold NoThreeCollinear collinear3
    exact of_decide_eq_true (by with_unfolding_all rfl)
  have h3 : homographyFrom4Points sqSrc sqDst = some hSq := by
    have hcomp : ∀ j : Fin 9,
        (homographyFrom4Points sqSrc sqDst).map (fun g => g j) = some (hSq j) :=
      of_decide_eq_true (by with_unfolding_all rfl)
    cases hx : homographyFrom4Points sqSrc sqDst with
    | none =>
      have h0 := hcomp 0
      rw [hx] at h0
      exact absurd h0 (by simp)
    | some f =>
      have hfs : f = hSq := by
        funext j
        have hj := hcomp j
        rw [hx] at hj
        simpa using hj
      rw [hfs]
  exact ⟨h1, h2, h3, homography_round_trip h1 h2 h3⟩

/-! ### The per-pixel warp: definedness and the skipped-pixel defect -/

/-- **C6 (amended).** Every destination pixel that passes the
`Math.abs(denom) < 1e-9` guard is assigned a defined color: opaque white
when the nearest-integer-rounded sample falls outside the source bounds,
otherwise the sampled source color with alpha forced to 255. (Pixels
failing the guard are skipped by `continue` and left undefined, see the
counterexample.) -/
theorem warp_pixel_defined (h : Fin 9 → ℚ) (srcW srcH : ℕ)
    (srcPix : ℤ → ℤ → Color) (x y : ℕ)
    (hden : mkRat 1 1000000000 ≤ |h 6 * mkRat x 1 + h 7 * mkRat y 1 + h 8|) :
    ∃ col : Color, warpPixel h srcW srcH srcPix x y = some col ∧
      col.a = 255 ∧
      ((jsRound ((h 0 * mkRat x 1 + h 1 * mkRat y 1 + h 2) /
            (h 6 * mkRat x 1 + h 7 * mkRat y 1 + h 8)) < 0 ∨
        jsRound ((h 3 * mkRat x 1 + h 4 * mkRat y 1 + h 5) /
            (h 6 * mkRat x 1 + h 7 * mkRat y 1 + h 8)) < 0 ∨
        (srcW : ℤ) ≤ jsRound ((h 0 * mkRat x 1 + h 1 * mkRat y 1 + h 2) /
            (h 6 * mkRat x 1 + h 7 * mkRat y 1 + h 8)) ∨
        (srcH : ℤ) ≤ jsRound ((h 3 * mkRat x 1 + h 4 * mkRat y 1 + h 5) /
            (h 6 * mkRat x 1 + h 7 * mkRat y 1 + h 8))) →
        col = whiteColor) ∧
      (¬ (jsRound ((h 0 * mkRat x 1 + h 1 * mkRat y 1 + h 2) /
            (h 6 * mkRat x 1 + h 7 * mkRat y 1 + h 8)) < 0 ∨
        jsRound ((h 3 * mkRat x 1 + h 4 * mkRat y 1 + h 5) /
            (h 6 * mkRat x 1 + h 7 * mkRat y 1 + h 8)) < 0 ∨
        (srcW : ℤ) ≤ jsRound ((h 0 * mkRat x 1 + h 1 * mkRat y 1 + h 2) /
            (h 6 * mkRat x 1 + h 7 * mkRat y 1 + h 8)) ∨
        (srcH : ℤ) ≤ jsRound ((h 3 * mkRat x 1 + h 4 * mkRat y 1 + h 5) /
            (h 6 * mkRat x 1 + h 7 * mkRat y 1 + h 8))) →
        col = ⟨(srcPix (jsRound ((h 0 * mkRat x 1 + h 1 * mkRat y 1 + h 2) /
                  (h 6 * mkRat x 1 + h 7 * mkRat y 1 + h 8)))
                (jsRound ((h 3 * mkRat x 1 + h 4 * mkRat y 1 + h 5) /
                  (h 6 * mkRat x 1 + h 7 * mkRat y 1 + h 8)))).r,
               (srcPix (jsRound ((h 0 * mkRat x 1 + h 1 * mkRat y 1 + h 2) /
                  (h 6 * mkRat x 1 + h 7 * mkRat y 1 + h 8)))
                (jsRound ((h 3 * mkRat x 1 + h 4 * mkRat y 1 + h 5) /
                  (h 6 * mkRat x 1 + h 7 * mkRat y 1 + h 8)))).g,
               (srcPix (jsRound ((h 0 * mkRat x 1 + h 1 * mkRat y 1 + h 2) /
                  (h 6 * mkRat x 1 + h 7 * mkRat y 1 + h 8)))
                (jsRound ((h 3 * mkRat x 1 + h 4 * mkRat y 1 + h 5) /
                  (h 6 * mkRat x 1 + h 7 * mkRat y 1 + h 8)))).b,
               255⟩) := by
  simp only [warpPixel]
  rw [if_neg (not_lt.mpr hden)]
  by_cases hb : jsRound ((h 0 * mkRat x 1 + h 1 * mkRat y 1 + h 2) /
        (h 6 * mkRat x 1 + h 7 * mkRat y 1 + h 8)) < 0 ∨
      jsRound ((h 3 * mkRat x 1 + h 4 * mkRat y 1 + h 5) /
        (h 6 * mkRat x 1 + h 7 * mkRat y 1 + h 8)) < 0 ∨
      (srcW : ℤ) ≤ jsRound ((h 0 * mkRat x 1 + h 1 * mkRat y 1 + h 2) /
        (h 6 * mkRat x 1 + h 7 * mkRat y 1 + h 8)) ∨
      (srcH : ℤ) ≤ jsRound ((h 3 * mkRat x 1 + h 4 * mkRat y 1 + h 5) /
        (h 6 * mkRat x 1 + h 7 * mkRat y 1 + h 8))
  · rw [if_pos hb]
    exact ⟨whiteColor, rfl, rfl, fun _ => rfl, fun hnb => absurd hb hnb⟩
  · rw [if_neg hb]
    exact ⟨_, rfl, rfl, fun hob => absurd hob hb, fun _ => rfl⟩

set_option maxRecDepth 40000 in
/-- Witness for the amended C6: the identity homography at pixel (0,0)
of a 10×10 source paints the sampled color with alpha 255. -/
theorem warp_pixel_defined_witness :
    mkRat 1 1000000000 ≤ |hId 6 * mkRat 0 1 + hId 7 * mkRat 0 1 + hId 8| ∧
    ∃ col : Color, warpPixel hId 10 10 grayPix 0 0 = some col ∧
      col.a = 255 ∧
      ((jsRound ((hId 0 * mkRat 0 1 + hId 1 * mkRat 0 1 + hId 2) /
            (hId 6 * mkRat 0 1 + hId 7 * mkRat 0 1 + hId 8)) < 0 ∨
        jsRound ((hId 3 * mkRat 0 1 + hId 4 * mkRat 0 1 + hId 5) /
            (hId 6 * mkRat 0 1 + hId 7 * mkRat 0 1 + hId 8)) < 0 ∨
        ((10 : ℕ) : ℤ) ≤ jsRound ((hId 0 * mkRat 0 1 + hId 1 * mkRat 0 1 + hId 2) /
            (hId 6 * mkRat 0 1 + hId 7 * mkRat 0 1 + hId 8)) ∨
        ((10 : ℕ) : ℤ) ≤ jsRound ((hId 3 * mkRat 0 1 + hId 4 * mkRat 0 1 + hId 5) /
            (hId 6 * mkRat 0 1 + hId 7 * mkRat 0 1 + hId 8))) →
        col = whiteColor) ∧
      (¬ (jsRound ((hId 0 * mkRat 0 1 + hId 1 * mkRat 0 1 + hId 2) /
            (hId 6 * mkRat 0 1 + hId 7 * mkRat 0 1 + hId 8)) < 0 ∨
        jsRound ((hId 3 * mkRat 0 1 + hId 4 * mkRat 0 1 + hId 5) /
            (hId 6 * mkRat 0 1 + hId 7 * mkRat 0 1 + hId 8)) < 0 ∨
        ((10 : ℕ) : ℤ) ≤ jsRound ((hId 0 * mkRat 0 1 + hId 1 * mkRat 0 1 + hId 2) /
            (hId 6 * mkRat 0 1 + hId 7 * mkRat 0 1 + hId 8)) ∨
        ((10 : ℕ) : ℤ) ≤ jsRound ((hId 3 * mkRat 0 1 + hId 4 * mkRat 0 1 + hId 5) /
            (hId 6 * mkRat 0 1 + hId 7 * mkRat 0 1 + hId 8))) →
        col = ⟨(grayPix (jsRound ((hId 0 * mkRat 0 1 + hId 1 * mkRat 0 1 + hId 2) /
                  (hId 6 * mkRat 0 1 + hId 7 * mkRat 0 1 + hId 8)))
                (jsRound ((hId 3 * mkRat 0 1 + hId 4 * mkRat 0 1 + hId 5) /
                  (hId 6 * mkRat 0 1 + hId 7 * mkRat 0 1 + hId 8)))).r,
               (grayPix (jsRound ((hId 0 * mkRat 0 1 + hId 1 * mkRat 0 1 + hId 2) /
                  (hId 6 * mkRat 0 1 + hId 7 * mkRat 0 1 + hId 8)))
                (jsRound ((hId 3 * mkRat 0 1 + hId 4 * mkRat 0 1 + hId 5) /
                  (hId 6 * mkRat 0 1 + hId 7 * mkRat 0 1 + hId 8)))).g,
               (grayPix (jsRound ((hId 0 * mkRat 0 1 + hId 1 * mkRat 0 1 + hId 2) /
                  (hId 6 * mkRat 0 1 + hId 7 * mkRat 0 1 + hId 8)))
                (jsRound ((hId 3 * mkRat 0 1 + hId 4 * mkRat 0 1 + hId 5) /
                  (hId 6 * mkRat 0 1 + hId 7 * mkRat 0 1 + hId 8)))).b,
               255⟩) :=
  ⟨of_decide_eq_true (by with_unfolding_all rfl),
   warp_pixel_defined hId 10 10 grayPix 0 0
     (of_decide_eq_true (by with_unfolding_all rfl))⟩

set_option maxRecDepth 100000 in
/-- Counterexample to C6 as stated: with the crossed corner quad
`cornersC6` the dst→src homography solve succeeds, yet destination pixel
(0, 450) — inside the 900×900 output — fails the `1e-9` denominator
guard, is skipped by `continue`, and is left undefined (the
`createImageData` default transparent black, not white and not a
sample). -/
theorem warp_skip_counterexample :
    (warpImage cornersC6 1000 1000 900 blackPix).map (fun img => img 0 450) =
      some none ∧ 0 < 900 ∧ 450 < 900 := by
  refine ⟨?_, by decide, by decide⟩
  exact of_decide_eq_true (by with_unfolding_all rfl)

end PuzzleSnap
